import Mathlib

/-!
Verification development for `src/actions/update-config/update-config.ts`, a CI
step that keeps a workflow config's `{source, destination}` mapping in sync with
repository renames/deletions.  The TypeScript source is shallowly embedded:
records become association lists, the reconciler loop becomes structural
recursion, and the three JavaScript regular expressions used by the text
patcher (`replaceSpecsInYaml`) are given an explicit operational semantics
(greedy `\s*`, lazy `[^-]*?` with lookahead `(?=\s*-|$)`, global replacement).
-/

set_option maxRecDepth 4000

namespace UpdateConfig

/-- Embeds the `OpenAPISpec` type: `{ source: string; destination: string }`. -/
structure Spec where
  source : String
  destination : String
deriving DecidableEq, Repr

/-- Embeds the diff entry payloads `['D', string]` (deleted) and
`['R', string, string]` (renamed: old path, new path) of the `DiffFile` record.
A missing new path is modelled as the empty string (JavaScript falsiness of
`newPath` in `if (!newPath)`). -/
inductive Change where
  | D (path : String)
  | R (oldPath newPath : String)
deriving DecidableEq, Repr

/-- Per-spec outcome of the reconciler (`Map<OpenAPISpec, OpenAPISpec | null>`):
`unchanged` is `updated.set(spec, spec)` (the same object, so the patcher's
`oldSpec === newSpec` skip fires exactly here), `dropped` is
`updated.set(spec, null)`, and `retargeted ns` is `updated.set(spec, ns)`
with a fresh object `ns`. -/
inductive Decision where
  | unchanged
  | dropped
  | retargeted (s : Spec)
deriving DecidableEq, Repr

/-- Log lines emitted through `core.info` / `core.warning`. -/
inductive LogLine where
  | info (msg : String)
  | warning (msg : String)
deriving DecidableEq, Repr

/-- Embeds the `Record<string, Change>` lookup `changes[spec.source]`.  The
record is modelled as an association list; `recordSet` below keeps keys
unique, matching JavaScript object key semantics. -/
def lookupChange : List (String × Change) → String → Option Change
  | [], _ => none
  | (k, v) :: rest, src => if k = src then some v else lookupChange rest src

/-- The decision taken by one iteration of the loop body of
`updateSpecsToMap` (lines 116-153 of the source) for a single spec. -/
def decideSpec (changes : List (String × Change)) (spec : Spec) : Decision :=
  match lookupChange changes spec.source with
  | none => .unchanged
  | some (.D _) => .dropped
  | some (.R _ newPath) =>
      if newPath = "" then .dropped
      else .retargeted { source := newPath, destination := spec.destination }

/-- Embeds `updateSpecsToMap(specs, changes)`: one decision per spec in input
order (first component) together with the emitted log lines (second
component). -/
def updateSpecsToMap :
    List Spec → List (String × Change) → List (Spec × Decision) × List LogLine
  | [], _ => ([], [])
  | spec :: rest, changes =>
    let tailRes := updateSpecsToMap rest changes
    match lookupChange changes spec.source with
    | none => ((spec, .unchanged) :: tailRes.1, tailRes.2)
    | some (.D _) =>
        ((spec, .dropped) :: tailRes.1,
         .info ("[REMOVE] " ++ spec.source ++ " in config.") :: tailRes.2)
    | some (.R oldPath newPath) =>
        if newPath = "" then
          ((spec, .dropped) :: tailRes.1,
           .warning ("Missing new path for renamed file: " ++ oldPath) :: tailRes.2)
        else
          ((spec, .retargeted { source := newPath, destination := spec.destination }) :: tailRes.1,
           .info ("[RENAME] " ++ oldPath ++ " -> " ++ newPath ++ " in config.") :: tailRes.2)

/-- Embeds Node's `path.basename` (posix): strip trailing slashes, then take
the component after the last remaining slash. -/
def basename (p : String) : String :=
  let kept := (p.data.reverse.dropWhile (fun c => c = '/'))
  String.mk (kept.takeWhile (fun c => c ≠ '/')).reverse

/-- JavaScript `GetSubstitution` for a string-pattern `replace` (no capture
groups): `$$` is a literal dollar, `$&` the matched text, a backtick-dollar
form the text before the match, `$'` the text after it; `$` followed by a
digit has no group to refer to and stays literal.  `M` is the matched text,
`pre`/`post` the text before/after the match in the subject string. -/
def getSubstitution0 (M pre post : List Char) : List Char → List Char
  | [] => []
  | c :: rest =>
      if c = '$' then
        match rest with
        | [] => ['$']
        | d :: r =>
            if d = '$' then '$' :: getSubstitution0 M pre post r
            else if d = '&' then M ++ getSubstitution0 M pre post r
            else if d.toNat = 96 then pre ++ getSubstitution0 M pre post r
            else if d = '\'' then post ++ getSubstitution0 M pre post r
            else '$' :: d :: getSubstitution0 M pre post r
      else c :: getSubstitution0 M pre post rest

/-- Embeds JavaScript `String.prototype.replace(pat, rep)` with string
arguments: replaces the first occurrence only, expanding `$`-sequences in
the replacement through `GetSubstitution` (the matched text of a string
pattern is the pattern itself); `pre` accumulates the text already scanned
past, which the backtick-dollar form reads. -/
def replaceFirstAux (pat rep : List Char) : List Char → List Char → List Char
  | pre, [] => if pat.isEmpty then getSubstitution0 pat pre [] rep else []
  | pre, c :: cs =>
      if pat.isPrefixOf (c :: cs) then
        getSubstitution0 pat pre ((c :: cs).drop pat.length) rep ++
          (c :: cs).drop pat.length
      else c :: replaceFirstAux pat rep (pre ++ [c]) cs

/-- String wrapper for `replaceFirstAux`. -/
def replaceFirst (s pat rep : String) : String :=
  String.mk (replaceFirstAux pat.data rep.data [] s.data)

/-- Embeds the historical reconciler `updateSpecs(specs, changes)` (lines
76-114), which drops deleted specs and, on rename, rewrites the destination by
substituting the old source's basename with the new one. -/
def updateSpecs : List Spec → List (String × Change) → List Spec × List LogLine
  | [], _ => ([], [])
  | spec :: rest, changes =>
    let tailRes := updateSpecs rest changes
    match lookupChange changes spec.source with
    | none => (spec :: tailRes.1, tailRes.2)
    | some (.D _) =>
        (tailRes.1, .info ("[REMOVE] " ++ spec.source ++ " in config.") :: tailRes.2)
    | some (.R oldPath newPath) =>
        if newPath = "" then
          (tailRes.1, .warning ("Missing new path for renamed file: " ++ oldPath) :: tailRes.2)
        else
          ({ source := newPath,
             destination :=
               replaceFirst spec.destination (basename spec.source) (basename newPath) } :: tailRes.1,
           .info ("[RENAME]" ++ oldPath ++ " -> " ++ newPath ++ " in config.") :: tailRes.2)

/-- One record of the `compareCommits` response relevant to `getDiffFiles`:
`filename`, `status` and (for renames) `previous_filename`. -/
structure FileEntry where
  filename : String
  status : String
  previous_filename : Option String
deriving DecidableEq, Repr

/-- JavaScript object assignment `diff[k] = v`: the last write to a key wins. -/
def recordSet (rec : List (String × Change)) (k : String) (v : Change) :
    List (String × Change) :=
  rec.filter (fun p => p.1 ≠ k) ++ [(k, v)]

/-- Embeds the filtering loop of `getDiffFiles` (lines 49-61): only `removed`
and `renamed` statuses contribute entries.  For a rename the key is
`previous_filename` (JavaScript would stringify a missing value to
`"undefined"`, hence `getD "undefined"`). -/
def getDiffFiles (files : List FileEntry) : List (String × Change) :=
  files.foldl
    (fun diff file =>
      if file.status = "removed" then
        recordSet diff file.filename (.D file.filename)
      else if file.status = "renamed" then
        let prev := file.previous_filename.getD "undefined"
        recordSet diff prev (.R prev file.filename)
      else diff)
    []

/-- Context of the triggering GitHub event, as read by
`autoCommitAndPushIfChanged`: the optional `payload.pull_request` (with its
head repo full name and head branch), the repository coordinates, and the
`GITHUB_HEAD_REF` environment variable. -/
structure PullRequestCtx where
  headRepoFullName : String
  headRef : String
deriving DecidableEq, Repr

structure GitHubCtx where
  pullRequest : Option PullRequestCtx
  owner : String
  repo : String
  envHeadRef : Option String
deriving DecidableEq, Repr

/-- Outcome of `autoCommitAndPushIfChanged` (lines 196-207): `skippedFork`
means the guard returned before reading the config file or calling the write
API; `proceeded b` means the file was read and a commit was attempted on
branch `b` (`pull_request?.head.ref || GITHUB_HEAD_REF`). -/
inductive CommitResult where
  | skippedFork
  | proceeded (branch : Option String)
deriving DecidableEq, Repr

/-- Embeds the fork guard and branch resolution of
`autoCommitAndPushIfChanged`.  With no `pull_request` in the payload the
optional chain yields `undefined`, which is `!==` any string, so `isFork` is
true and the function returns immediately. -/
def autoCommitAndPushIfChanged (ctx : GitHubCtx) : CommitResult :=
  let isFork : Bool :=
    match ctx.pullRequest with
    | some pr => pr.headRepoFullName ≠ ctx.owner ++ "/" ++ ctx.repo
    | none => true
  if isFork then .skippedFork
  else
    .proceeded
      (match ctx.pullRequest with
       | some pr => some pr.headRef
       | none => ctx.envHeadRef)

/-! ### The text patcher (`replaceSpecsInYaml`, lines 155-186)

The patcher builds three JavaScript regexes from path strings escaped by
`escapeRegExp` and applies global replacement to the raw config text:

* deletion: ``new RegExp(`\\s*- source:\\s*${esc(src)}[^-]*?(?=\\s*-|$)`, 'gs')``
  replaced by the empty string;
* rename, source field: ``new RegExp(`(\\s*- source:\\s*)${esc(src)}`, 'g')``
  replaced by `` `$1${newSrc}` ``;
* rename, destination field: ``new RegExp(`(\\s*destination:\\s*)${esc(dst)}`, 'g')``
  replaced by `` `$1${newDst}` ``.

We embed these by interpreting the escaped path fragment with `litPatMatch`
(a JS-faithful semantics for the pattern fragment `escapeRegExp` can emit,
plus the unescaped wildcard `.`), the scaffolds `\s*- source:\s*` /
`\s*destination:\s*` with greedy backtracking over JS `\s`, the lazy tail
`[^-]*?(?=\s*-|$)` with its lookahead, and global replacement as a
left-to-right scan that resumes after each match. -/

/-- Characters escaped by `escapeRegExp` (the class `[.*+?^${}()|[\]\\]` of
line 185). -/
def isRegexMeta (c : Char) : Bool :=
  c = '.' || c = '*' || c = '+' || c = '?' || c = '^' || c = '$' ||
  c = '\x7b' || c = '\x7d' || c = '(' || c = ')' || c = '|' ||
  c = '[' || c = ']' || c = '\\'

/-- Embeds `escapeRegExp` (lines 184-186) on character lists:
`string.replace(/[.*+?^${}()|[\]\\]/g, '\\$&')`. -/
def escapeRegExpL : List Char → List Char
  | [] => []
  | c :: cs => if isRegexMeta c then '\\' :: c :: escapeRegExpL cs else c :: escapeRegExpL cs

/-- String wrapper for `escapeRegExpL`. -/
def escapeRegExp (s : String) : String :=
  String.mk (escapeRegExpL s.data)

/-- JavaScript line terminators (not matched by an unescaped `.` without the
`s` flag). -/
def isLineTerm (c : Char) : Bool :=
  c = '\n' || c = '\r' || c.toNat = 0x2028 || c.toNat = 0x2029

/-- Matches the path fragment of the patcher's patterns at the head of `s`,
returning the number of consumed characters.  The fragment is the output of
`escapeRegExp`, so it consists of plain characters and `\c` escapes; the
unescaped wildcard `.` is also given its JS meaning (any non line
terminator) so that the effect of escaping is visible in the model.  Other
unescaped metacharacters cannot occur in an escaped fragment and are treated
as plain characters. -/
def litPatMatch : List Char → List Char → Option Nat
  | [], _ => some 0
  | c :: ps, s =>
      if c = '\\' then
        match ps with
        | [] => none
        | p :: ps' =>
          match s with
          | [] => none
          | c' :: s' => if c' = p then (litPatMatch ps' s').map (· + 1) else none
      else
        match s with
        | [] => none
        | c' :: s' =>
          if c = '.' then
            (if isLineTerm c' then none else (litPatMatch ps s').map (· + 1))
          else
            (if c' = c then (litPatMatch ps s').map (· + 1) else none)

/-- JavaScript `\s` (the whitespace class used by the `\s*` scaffolds). -/
def isWs (c : Char) : Bool :=
  c = ' ' || c = '\t' || c = '\n' || c = '\r' ||
  c.toNat = 0x0B || c.toNat = 0x0C || c.toNat = 0xA0 || c.toNat = 0x1680 ||
  (0x2000 ≤ c.toNat && c.toNat ≤ 0x200A) ||
  c.toNat = 0x2028 || c.toNat = 0x2029 || c.toNat = 0x202F ||
  c.toNat = 0x205F || c.toNat = 0x3000 || c.toNat = 0xFEFF

/-- Length of the maximal `\s` run at the head of a string (the most a greedy
`\s*` can consume). -/
def wsRunLen : List Char → Nat
  | [] => 0
  | c :: cs => if isWs c then wsRunLen cs + 1 else 0

/-- Greedy backtracking for `\s*` followed by a fragment: try consuming `k`
whitespace characters, from `k` down to `0`, and return the first `k` at
which the fragment matches, together with the fragment's consumed length.
Called with `k = wsRunLen s` this is exactly the JS semantics of
`\s*FRAGMENT` anchored at the head of `s`. -/
def greedyDescend (pat s : List Char) : Nat → Option (Nat × Nat)
  | 0 => (litPatMatch pat s).map (fun m => (0, m))
  | k + 1 =>
      match litPatMatch pat (s.drop (k + 1)) with
      | some m => some (k + 1, m)
      | none => greedyDescend pat s k

/-- `\s*` then a fragment, anchored at the head of `s`. -/
def greedyWsThen (pat s : List Char) : Option (Nat × Nat) :=
  greedyDescend pat s (wsRunLen s)

/-- Attempts `(\s*LABEL\s*)ESCPATH` at the head of `s` (the shared shape of
the three patterns' prefixes, with `LABEL` being `- source:` or
`destination:`).  Returns `(capture length, total length)`: the capture is
the parenthesised group `$1`, the total is the whole match. -/
def matchLabeledAt (label escPath s : List Char) : Option (Nat × Nat) :=
  match greedyWsThen label s with
  | none => none
  | some (k1, m1) =>
      let pre := k1 + m1
      match greedyWsThen escPath (s.drop pre) with
      | none => none
      | some (k2, m2) => some (pre + k2, pre + k2 + m2)

/-- The lookahead `(?=\s*-|$)` of the deletion pattern: either some run of
whitespace followed by `-`, or the end of the input.  Since `-` is not a
whitespace character, the first alternative holds exactly when the character
after the maximal whitespace run is `-`. -/
def lookaheadOk (t : List Char) : Bool :=
  (match t.drop (wsRunLen t) with
   | c :: _ => c = '-'
   | [] => false) || t.isEmpty

/-- The lazy tail `[^-]*?(?=\s*-|$)`: consume the least number of non-`-`
characters after which the lookahead holds. -/
def lazyNonDashLen : List Char → Option Nat
  | [] => some 0
  | c :: cs =>
      if lookaheadOk (c :: cs) then some 0
      else if c = '-' then none
      else (lazyNonDashLen cs).map (· + 1)

/-- Attempts the full deletion pattern
`\s*- source:\s*ESCPATH[^-]*?(?=\s*-|$)` at the head of `s`, returning the
total match length. -/
def matchDeleteAt (escPath s : List Char) : Option Nat :=
  match matchLabeledAt ("- source:".data) escPath s with
  | none => none
  | some (_, tot) => (lazyNonDashLen (s.drop tot)).map (fun j => tot + j)

/-- The global replacement with a `$`-free replacement string: scan left to
right; at a match emit the capture `$1` (the matched prefix up to the path)
followed by `rep` verbatim, and resume after the match; otherwise emit one
character and advance.  Each step consumes at least one character of the
text (the label is `- source:` or `destination:`, so a match is never
empty, and `max 1 tot` makes that manifest), so the scan is driven by a fuel
initialised to the text's length, which `replaceLabeledFuel_congr` below
shows is always enough.  `replaceLabeledJS_eq_plain` proves the faithful
scanner equal to this one whenever `rep` contains no `$`. -/
def replaceLabeledFuel (label escPath rep : List Char) : Nat → List Char → List Char
  | 0, s => s
  | _ + 1, [] => []
  | f + 1, c :: cs =>
      match matchLabeledAt label escPath (c :: cs) with
      | some (cap, tot) =>
          (c :: cs).take cap ++ rep ++
            replaceLabeledFuel label escPath rep f ((c :: cs).drop (max 1 tot))
      | none => c :: replaceLabeledFuel label escPath rep f cs

def replaceLabeledAux (label escPath rep : List Char) (s : List Char) : List Char :=
  replaceLabeledFuel label escPath rep s.length s

/-- Global replacement by the empty string for the deletion pattern, driven
by the same sufficient fuel. -/
def removeSpecEntryFuel (escPath : List Char) : Nat → List Char → List Char
  | 0, s => s
  | _ + 1, [] => []
  | f + 1, c :: cs =>
      match matchDeleteAt escPath (c :: cs) with
      | some tot => removeSpecEntryFuel escPath f ((c :: cs).drop (max 1 tot))
      | none => c :: removeSpecEntryFuel escPath f cs

def removeSpecEntryAux (escPath : List Char) (s : List Char) : List Char :=
  removeSpecEntryFuel escPath s.length s

/-- JavaScript `GetSubstitution` for the patcher's replacement templates:
the patterns carry exactly one capture group, so besides `$$` (literal
dollar), `$&` (whole match), the backtick-dollar form (text before the
match) and `$'` (text after it), `$1` — also written `$01` — expands to the
capture; every other `$`-sequence is literal.  `M` is the matched text,
`cap` the capture, `pre`/`post` the text before/after the match in the
subject string. -/
def getSubstFuel (M cap pre post : List Char) : Nat → List Char → List Char
  | 0, _ => []
  | _ + 1, [] => []
  | f + 1, c :: rest =>
      if c = '$' then
        match rest with
        | [] => ['$']
        | d :: r =>
            if d = '$' then '$' :: getSubstFuel M cap pre post f r
            else if d = '&' then M ++ getSubstFuel M cap pre post f r
            else if d.toNat = 96 then pre ++ getSubstFuel M cap pre post f r
            else if d = '\'' then post ++ getSubstFuel M cap pre post f r
            else if d = '0' then
              match r with
              | '1' :: r2 => cap ++ getSubstFuel M cap pre post f r2
              | _ => '$' :: '0' :: getSubstFuel M cap pre post f r
            else if d = '1' then cap ++ getSubstFuel M cap pre post f r
            else '$' :: d :: getSubstFuel M cap pre post f r
      else c :: getSubstFuel M cap pre post f rest

/-- The template expander driven by sufficient fuel (each step consumes at
least one template character, so the template's length is enough). -/
def getSubstitution (M cap pre post tpl : List Char) : List Char :=
  getSubstFuel M cap pre post tpl.length tpl

/-- Faithful JavaScript global `replace` with the replacement template
`` `$1${rep}` `` (lines 170-177): scans left to right, carries the consumed
prefix `pre` (which the backtick-dollar form reads), and expands the template
through `getSubstitution` at every match. -/
def replaceLabeledJSFuel (label escPath rep : List Char) :
    Nat → List Char → List Char → List Char
  | 0, _, s => s
  | _ + 1, _, [] => []
  | f + 1, pre, c :: cs =>
      match matchLabeledAt label escPath (c :: cs) with
      | some (cap, tot) =>
          getSubstitution ((c :: cs).take tot) ((c :: cs).take cap) pre
              ((c :: cs).drop tot) ('$' :: '1' :: rep) ++
            replaceLabeledJSFuel label escPath rep f (pre ++ (c :: cs).take (max 1 tot))
              ((c :: cs).drop (max 1 tot))
      | none => c :: replaceLabeledJSFuel label escPath rep f (pre ++ [c]) cs

def replaceLabeledJS (label escPath rep : List Char) (s : List Char) : List Char :=
  replaceLabeledJSFuel label escPath rep s.length [] s

/-- One iteration of the patcher loop (lines 162-178), on character lists:
skip `unchanged` (the `oldSpec === newSpec` test), apply the deletion pattern
for `dropped`, and apply the source then destination substitutions for
`retargeted`. -/
def applyDecision (text : List Char) (p : Spec × Decision) : List Char :=
  match p.2 with
  | .unchanged => text
  | .dropped => removeSpecEntryAux (escapeRegExpL p.1.source.data) text
  | .retargeted ns =>
      let t1 := replaceLabeledJS ("- source:".data) (escapeRegExpL p.1.source.data)
        ns.source.data text
      replaceLabeledJS ("destination:".data) (escapeRegExpL p.1.destination.data)
        ns.destination.data t1

/-- Embeds `replaceSpecsInYaml(updatedSpecs, yamlContent)`: fold the patcher
loop over the decisions in insertion (= spec) order. -/
def replaceSpecsInYaml (updatedSpecs : List (Spec × Decision)) (yamlContent : String) : String :=
  String.mk (updatedSpecs.foldl applyDecision yamlContent.data)

/-! ### Canonical config text -/

/-- Characters of one rendered entry, the per-spec template of
`formatOpenAPIBlock` (line 73):
`"  - source: ${spec.source}\n    destination: ${spec.destination}"`. -/
def specEntryChars (s : Spec) : List Char :=
  "  - source: ".data ++ s.source.data ++ "\n    destination: ".data ++ s.destination.data

/-- Characters of the rendered block: entries joined by `"\n"`. -/
def blockChars : List Spec → List Char
  | [] => []
  | [s] => specEntryChars s
  | s :: rest => specEntryChars s ++ '\n' :: blockChars rest

/-- What follows a rendered entry: nothing if it is the last one, otherwise
the joining newline and the rest of the block. -/
def blockTail : List Spec → List Char
  | [] => []
  | r :: rest => '\n' :: blockChars (r :: rest)

/-- Embeds `formatOpenAPIBlock(specs)`: the `join('\n')` of the per-spec
template strings. -/
def formatOpenAPIBlock (specs : List Spec) : String :=
  String.mk (blockChars specs)

/-- Splits a character list at newlines (every line, including a final empty
one). -/
def splitLines : List Char → List (List Char)
  | [] => [[]]
  | c :: cs =>
      if c = '\n' then [] :: splitLines cs
      else
        match splitLines cs with
        | l :: ls => (c :: l) :: ls
        | [] => [[c]]

/-- Parses pairs of lines of the canonical shape
`"  - source: S"` / `"    destination: D"` back into specs. -/
def parsePairs : List (List Char) → Option (List Spec)
  | [] => some []
  | l1 :: l2 :: rest =>
      if ("  - source: ".data.isPrefixOf l1 && "    destination: ".data.isPrefixOf l2) then
        match parsePairs rest with
        | some specs => some (⟨String.mk (l1.drop 12), String.mk (l2.drop 17)⟩ :: specs)
        | none => none
      else none
  | [_] => none

/-- Models re-parsing the patched block (the YAML parser `yaml.load` is an
external library; this parser accepts exactly the canonical shape emitted by
`formatOpenAPIBlock`, tolerating one leading newline, which is insignificant
in YAML block context). -/
def parseFormattedBlock (text : String) : Option (List Spec) :=
  match text.data with
  | [] => some []
  | '\n' :: [] => some []
  | '\n' :: rest => parsePairs (splitLines rest)
  | cs => parsePairs (splitLines cs)

/-- The specs that survive the reconciler's decisions, in order: `unchanged`
keeps the spec, `retargeted` keeps the new spec, `dropped` removes it. -/
def survivingSpecs (specs : List Spec) (changes : List (String × Change)) : List Spec :=
  (updateSpecsToMap specs changes).1.filterMap
    (fun p =>
      match p.2 with
      | .unchanged => some p.1
      | .dropped => none
      | .retargeted ns => some ns)

/-- The spec a single entry becomes after its decision (`none` if dropped). -/
def finalSpec (changes : List (String × Change)) (s : Spec) : Option Spec :=
  match decideSpec changes s with
  | .unchanged => some s
  | .dropped => none
  | .retargeted ns => some ns

/-- The source path a single entry carries after its decision. -/
def finalSource (changes : List (String × Change)) (s : Spec) : Option String :=
  (finalSpec changes s).map Spec.source

/-- The per-entry effect of the rename substitution on the parsed view of a
canonical block: an entry whose source is exactly `src` gets the new source,
everything else is untouched. -/
def retargetIn (src new : String) (s : Spec) : Spec :=
  if s.source = src then { source := new, destination := s.destination } else s

/-- A path string is clean when it is non-empty and contains neither
JavaScript whitespace nor `$`.  Ordinary repository paths are clean;
whitespace-freedom is what makes the patcher's `\s*`-delimited patterns line
up with entry boundaries, and `$`-freedom keeps the replacement template's
`GetSubstitution` from expanding `$`-sequences inside an inserted path. -/
def cleanStr (p : String) : Bool :=
  !p.data.isEmpty && p.data.all (fun c => !isWs c && !(c = '$'))

/-- Non-interference of entry `s` towards entry `t`: if `s`'s decision makes
the patcher act on `s.source` (deletion or rename), then `s.source` is not a
prefix of `t`'s original source nor of the source `t` ends up with — this is
exactly what keeps the global regex replacements from touching `t`'s entry. -/
def noInterfB (changes : List (String × Change)) (s t : Spec) : Bool :=
  decide (decideSpec changes s = .unchanged) ||
  (!(s.source.data.isPrefixOf t.source.data) &&
    (finalSource changes t).all (fun n => !(s.source.data.isPrefixOf n.data)))

/-- Hypothesis pack under which the text patcher's global regex replacements
act entry-wise on a canonically rendered block: every old and new path is
clean (non-empty, whitespace-free, and `$`-free so that the replacement
template expands to the path verbatim), the destination of every deleted
entry contains no `-` (the deletion
pattern's lazy tail stops at a `-`), and no acted-on source is a prefix of
any other entry's old or new source. -/
def benign (specs : List Spec) (changes : List (String × Change)) : Prop :=
  (∀ s ∈ specs, cleanStr s.source = true ∧ cleanStr s.destination = true) ∧
  (∀ s ∈ specs, ∀ ns, decideSpec changes s = .retargeted ns → cleanStr ns.source = true) ∧
  (∀ s ∈ specs, decideSpec changes s = .dropped → s.destination.data.contains '-' = false) ∧
  List.Pairwise (fun s t => noInterfB changes s t = true ∧ noInterfB changes t s = true) specs

/-- Decidable substring test (used to state counterexamples about the patched
text). -/
def containsSeg (pat : List Char) : List Char → Bool
  | [] => pat.isEmpty
  | c :: cs => pat.isPrefixOf (c :: cs) || containsSeg pat cs

/-! ### The run pipeline (`run`, lines 261-312) -/

/-- Observable effects of one invocation of `run`, restricted to what the
claims mention: the final content of the config file, whether a write
happened, the commit outcome, whether the run succeeded, and the
informational log lines of the early-exit paths. -/
structure RunEffect where
  finalText : String
  wrote : Bool
  commit : Option CommitResult
  ok : Bool
  infoLog : List String
deriving Repr

/-- Embeds the decision structure of `run` after config loading and
authentication: an empty spec list or an empty change record exits early with
an informational log and no write; otherwise the reconciled decisions are
patched into the raw text, the file is written, and the auto-commit step
runs. -/
def runCore (configRaw : String) (specs : List Spec) (changes : List (String × Change))
    (ctx : GitHubCtx) : RunEffect :=
  if specs.length = 0 then
    { finalText := configRaw, wrote := false, commit := none, ok := true,
      infoLog := ["No tracked files, skipping update."] }
  else if changes.length = 0 then
    { finalText := configRaw, wrote := false, commit := none, ok := true,
      infoLog := ["No tracked files were renamed/deleted, skipping update."] }
  else
    { finalText := replaceSpecsInYaml (updateSpecsToMap specs changes).1 configRaw,
      wrote := true,
      commit := some (autoCommitAndPushIfChanged ctx),
      ok := true,
      infoLog := ["Successfully updated openapi-sync.yml"] }

/-! ### Fuel adequacy for the two global-replacement scans -/

theorem replaceLabeledFuel_cons (label escPath rep : List Char) (f : Nat) (c : Char)
    (cs : List Char) :
    replaceLabeledFuel label escPath rep (f + 1) (c :: cs) =
      match matchLabeledAt label escPath (c :: cs) with
      | some (cap, tot) =>
          (c :: cs).take cap ++ rep ++
            replaceLabeledFuel label escPath rep f ((c :: cs).drop (max 1 tot))
      | none => c :: replaceLabeledFuel label escPath rep f cs := rfl

theorem replaceLabeledFuel_cons_some (label escPath rep : List Char) (f : Nat) (c : Char)
    (cs : List Char) (cap tot : Nat)
    (hm : matchLabeledAt label escPath (c :: cs) = some (cap, tot)) :
    replaceLabeledFuel label escPath rep (f + 1) (c :: cs) =
      (c :: cs).take cap ++ rep ++
        replaceLabeledFuel label escPath rep f ((c :: cs).drop (max 1 tot)) := by
  rw [replaceLabeledFuel_cons, hm]

theorem replaceLabeledFuel_cons_none (label escPath rep : List Char) (f : Nat) (c : Char)
    (cs : List Char) (hm : matchLabeledAt label escPath (c :: cs) = none) :
    replaceLabeledFuel label escPath rep (f + 1) (c :: cs) =
      c :: replaceLabeledFuel label escPath rep f cs := by
  rw [replaceLabeledFuel_cons, hm]

theorem removeSpecEntryFuel_cons (escPath : List Char) (f : Nat) (c : Char)
    (cs : List Char) :
    removeSpecEntryFuel escPath (f + 1) (c :: cs) =
      match matchDeleteAt escPath (c :: cs) with
      | some tot => removeSpecEntryFuel escPath f ((c :: cs).drop (max 1 tot))
      | none => c :: removeSpecEntryFuel escPath f cs := rfl

theorem removeSpecEntryFuel_cons_some (escPath : List Char) (f : Nat) (c : Char)
    (cs : List Char) (tot : Nat) (hm : matchDeleteAt escPath (c :: cs) = some tot) :
    removeSpecEntryFuel escPath (f + 1) (c :: cs) =
      removeSpecEntryFuel escPath f ((c :: cs).drop (max 1 tot)) := by
  rw [removeSpecEntryFuel_cons, hm]

theorem removeSpecEntryFuel_cons_none (escPath : List Char) (f : Nat) (c : Char)
    (cs : List Char) (hm : matchDeleteAt escPath (c :: cs) = none) :
    removeSpecEntryFuel escPath (f + 1) (c :: cs) =
      c :: removeSpecEntryFuel escPath f cs := by
  rw [removeSpecEntryFuel_cons, hm]

theorem replaceLabeledFuel_congr (label escPath rep : List Char) :
    ∀ (f g : Nat) (s : List Char), s.length ≤ f → s.length ≤ g →
      replaceLabeledFuel label escPath rep f s = replaceLabeledFuel label escPath rep g s := by
  intro f
  induction f with
  | zero =>
    intro g s hf _
    have hs : s = [] := List.eq_nil_of_length_eq_zero (Nat.le_zero.mp hf)
    subst hs
    cases g <;> rfl
  | succ f ih =>
    intro g s hf hg
    cases s with
    | nil => cases g <;> rfl
    | cons c cs =>
      cases g with
      | zero => exact absurd hg (by simp)
      | succ g' =>
        have hf' : cs.length ≤ f := Nat.succ_le_succ_iff.mp hf
        have hg' : cs.length ≤ g' := Nat.succ_le_succ_iff.mp hg
        cases hm : matchLabeledAt label escPath (c :: cs) with
        | some p =>
          obtain ⟨cap, tot⟩ := p
          rw [replaceLabeledFuel_cons_some label escPath rep f c cs cap tot hm,
            replaceLabeledFuel_cons_some label escPath rep g' c cs cap tot hm]
          have hlen : ((c :: cs).drop (max 1 tot)).length ≤ cs.length := by
            simp only [List.length_drop, List.length_cons]
            omega
          rw [ih g' _ (le_trans hlen hf') (le_trans hlen hg')]
        | none =>
          rw [replaceLabeledFuel_cons_none label escPath rep f c cs hm,
            replaceLabeledFuel_cons_none label escPath rep g' c cs hm]
          rw [ih g' cs hf' hg']

theorem removeSpecEntryFuel_congr (escPath : List Char) :
    ∀ (f g : Nat) (s : List Char), s.length ≤ f → s.length ≤ g →
      removeSpecEntryFuel escPath f s = removeSpecEntryFuel escPath g s := by
  intro f
  induction f with
  | zero =>
    intro g s hf _
    have hs : s = [] := List.eq_nil_of_length_eq_zero (Nat.le_zero.mp hf)
    subst hs
    cases g <;> rfl
  | succ f ih =>
    intro g s hf hg
    cases s with
    | nil => cases g <;> rfl
    | cons c cs =>
      cases g with
      | zero => exact absurd hg (by simp)
      | succ g' =>
        have hf' : cs.length ≤ f := Nat.succ_le_succ_iff.mp hf
        have hg' : cs.length ≤ g' := Nat.succ_le_succ_iff.mp hg
        cases hm : matchDeleteAt escPath (c :: cs) with
        | some tot =>
          rw [removeSpecEntryFuel_cons_some escPath f c cs tot hm,
            removeSpecEntryFuel_cons_some escPath g' c cs tot hm]
          have hlen : ((c :: cs).drop (max 1 tot)).length ≤ cs.length := by
            simp only [List.length_drop, List.length_cons]
            omega
          exact ih g' _ (le_trans hlen hf') (le_trans hlen hg')
        | none =>
          rw [removeSpecEntryFuel_cons_none escPath f c cs hm,
            removeSpecEntryFuel_cons_none escPath g' c cs hm]
          rw [ih g' cs hf' hg']

theorem replaceLabeledAux_nil (label escPath rep : List Char) :
    replaceLabeledAux label escPath rep [] = [] := rfl

theorem replaceLabeledAux_cons_match (label escPath rep : List Char) (c : Char)
    (cs : List Char) (cap tot : Nat)
    (h : matchLabeledAt label escPath (c :: cs) = some (cap, tot)) :
    replaceLabeledAux label escPath rep (c :: cs) =
      (c :: cs).take cap ++ rep ++ replaceLabeledAux label escPath rep ((c :: cs).drop (max 1 tot)) := by
  unfold replaceLabeledAux
  rw [List.length_cons, replaceLabeledFuel_cons_some label escPath rep cs.length c cs cap tot h]
  congr 1
  exact replaceLabeledFuel_congr label escPath rep _ _ _
    (by simp only [List.length_drop, List.length_cons]; omega) (le_refl _)

theorem replaceLabeledAux_cons_none (label escPath rep : List Char) (c : Char)
    (cs : List Char) (h : matchLabeledAt label escPath (c :: cs) = none) :
    replaceLabeledAux label escPath rep (c :: cs) =
      c :: replaceLabeledAux label escPath rep cs := by
  unfold replaceLabeledAux
  rw [List.length_cons, replaceLabeledFuel_cons_none label escPath rep cs.length c cs h]

theorem removeSpecEntryAux_nil (escPath : List Char) :
    removeSpecEntryAux escPath [] = [] := rfl

theorem removeSpecEntryAux_cons_match (escPath : List Char) (c : Char) (cs : List Char)
    (tot : Nat) (h : matchDeleteAt escPath (c :: cs) = some tot) :
    removeSpecEntryAux escPath (c :: cs) =
      removeSpecEntryAux escPath ((c :: cs).drop (max 1 tot)) := by
  unfold removeSpecEntryAux
  rw [List.length_cons, removeSpecEntryFuel_cons_some escPath cs.length c cs tot h]
  exact removeSpecEntryFuel_congr escPath _ _ _
    (by simp only [List.length_drop, List.length_cons]; omega) (le_refl _)

theorem removeSpecEntryAux_cons_none (escPath : List Char) (c : Char) (cs : List Char)
    (h : matchDeleteAt escPath (c :: cs) = none) :
    removeSpecEntryAux escPath (c :: cs) = c :: removeSpecEntryAux escPath cs := by
  unfold removeSpecEntryAux
  rw [List.length_cons, removeSpecEntryFuel_cons_none escPath cs.length c cs h]

/-! ### The faithful scanner and the plain one coincide for dollar-free replacements -/

theorem getSubstFuel_cons (M cap pre post : List Char) (f : Nat) (c : Char)
    (rest : List Char) :
    getSubstFuel M cap pre post (f + 1) (c :: rest) =
      (if c = '$' then
        match rest with
        | [] => ['$']
        | d :: r =>
            if d = '$' then '$' :: getSubstFuel M cap pre post f r
            else if d = '&' then M ++ getSubstFuel M cap pre post f r
            else if d.toNat = 96 then pre ++ getSubstFuel M cap pre post f r
            else if d = '\'' then post ++ getSubstFuel M cap pre post f r
            else if d = '0' then
              match r with
              | '1' :: r2 => cap ++ getSubstFuel M cap pre post f r2
              | _ => '$' :: '0' :: getSubstFuel M cap pre post f r
            else if d = '1' then cap ++ getSubstFuel M cap pre post f r
            else '$' :: d :: getSubstFuel M cap pre post f r
      else c :: getSubstFuel M cap pre post f rest) := rfl

theorem getSubstFuel_cons_plain (M cap pre post : List Char) (f : Nat) (c : Char)
    (rest : List Char) (h : ¬ c = '$') :
    getSubstFuel M cap pre post (f + 1) (c :: rest) =
      c :: getSubstFuel M cap pre post f rest := by
  rw [getSubstFuel_cons, if_neg h]

theorem getSubstFuel_dollar_free (M cap pre post : List Char) :
    ∀ (f : Nat) (rep : List Char), rep.length ≤ f → (∀ c ∈ rep, ¬ c = '$') →
      getSubstFuel M cap pre post f rep = rep := by
  intro f
  induction f with
  | zero =>
    intro rep hlen _
    rw [show rep = [] from List.eq_nil_of_length_eq_zero (Nat.le_zero.mp hlen)]
    rfl
  | succ f ih =>
    intro rep hlen h
    cases rep with
    | nil => rfl
    | cons c rest =>
      rw [getSubstFuel_cons_plain M cap pre post f c rest (h c (List.mem_cons_self _ _))]
      have hlen' : rest.length ≤ f := by
        simp only [List.length_cons] at hlen
        omega
      rw [ih rest hlen' (fun x hx => h x (List.mem_cons_of_mem _ hx))]

/-- On the patcher's template `` `$1${rep}` `` with a `$`-free `rep`, the
expansion is the capture followed by `rep` verbatim. -/
theorem getSubstitution_template_dollar_free (M cap pre post rep : List Char)
    (h : ∀ c ∈ rep, ¬ c = '$') :
    getSubstitution M cap pre post ('$' :: '1' :: rep) = cap ++ rep := by
  show getSubstFuel M cap pre post (('$' :: '1' :: rep).length) ('$' :: '1' :: rep) =
    cap ++ rep
  rw [show getSubstFuel M cap pre post (('$' :: '1' :: rep).length) ('$' :: '1' :: rep)
      = cap ++ getSubstFuel M cap pre post (rep.length + 1) rep from rfl]
  rw [getSubstFuel_dollar_free M cap pre post (rep.length + 1) rep (by omega) h]

theorem replaceLabeledJSFuel_cons (label escPath rep : List Char) (f : Nat)
    (pre : List Char) (c : Char) (cs : List Char) :
    replaceLabeledJSFuel label escPath rep (f + 1) pre (c :: cs) =
      match matchLabeledAt label escPath (c :: cs) with
      | some (cap, tot) =>
          getSubstitution ((c :: cs).take tot) ((c :: cs).take cap) pre
              ((c :: cs).drop tot) ('$' :: '1' :: rep) ++
            replaceLabeledJSFuel label escPath rep f (pre ++ (c :: cs).take (max 1 tot))
              ((c :: cs).drop (max 1 tot))
      | none => c :: replaceLabeledJSFuel label escPath rep f (pre ++ [c]) cs := rfl

theorem replaceLabeledJSFuel_eq_plain (label escPath rep : List Char)
    (h : ∀ c ∈ rep, ¬ c = '$') :
    ∀ (f : Nat) (pre s : List Char),
      replaceLabeledJSFuel label escPath rep f pre s =
        replaceLabeledFuel label escPath rep f s := by
  intro f
  induction f with
  | zero =>
    intro pre s
    rfl
  | succ f ih =>
    intro pre s
    cases s with
    | nil => rfl
    | cons c cs =>
      rw [replaceLabeledJSFuel_cons, replaceLabeledFuel_cons]
      cases hm : matchLabeledAt label escPath (c :: cs) with
      | none =>
        show c :: replaceLabeledJSFuel label escPath rep f (pre ++ [c]) cs =
          c :: replaceLabeledFuel label escPath rep f cs
        rw [ih]
      | some q =>
        obtain ⟨cap, tot⟩ := q
        show getSubstitution ((c :: cs).take tot) ((c :: cs).take cap) pre
              ((c :: cs).drop tot) ('$' :: '1' :: rep) ++
            replaceLabeledJSFuel label escPath rep f (pre ++ (c :: cs).take (max 1 tot))
              ((c :: cs).drop (max 1 tot)) =
          (c :: cs).take cap ++ rep ++
            replaceLabeledFuel label escPath rep f ((c :: cs).drop (max 1 tot))
        rw [getSubstitution_template_dollar_free _ _ _ _ rep h, ih]

theorem replaceLabeledJS_eq_plain (label escPath rep : List Char)
    (h : ∀ c ∈ rep, ¬ c = '$') (s : List Char) :
    replaceLabeledJS label escPath rep s = replaceLabeledAux label escPath rep s :=
  replaceLabeledJSFuel_eq_plain label escPath rep h s.length [] s

/-! ### The escaped path fragment matches literally -/

theorem litPatMatch_esc_cons (p : Char) (ps' : List Char) (c' : Char) (s' : List Char) :
    litPatMatch ('\\' :: p :: ps') (c' :: s') =
      if c' = p then (litPatMatch ps' s').map (· + 1) else none := rfl

theorem litPatMatch_esc_nil (p : Char) (ps' : List Char) :
    litPatMatch ('\\' :: p :: ps') [] = none := rfl

theorem litPatMatch_plain_cons (c : Char) (ps : List Char) (c' : Char) (s' : List Char)
    (h1 : c ≠ '\\') (h2 : c ≠ '.') :
    litPatMatch (c :: ps) (c' :: s') =
      if c' = c then (litPatMatch ps s').map (· + 1) else none := by
  rw [litPatMatch.eq_def]
  simp only [if_neg h1, if_neg h2]

theorem litPatMatch_plain_nil (c : Char) (ps : List Char) (h1 : c ≠ '\\') :
    litPatMatch (c :: ps) [] = none := by
  rw [litPatMatch.eq_def]
  simp only [if_neg h1]

theorem litPatMatch_escape (l s : List Char) :
    litPatMatch (escapeRegExpL l) s = if l.isPrefixOf s then some l.length else none := by
  induction l generalizing s with
  | nil => simp [escapeRegExpL, litPatMatch, List.isPrefixOf]
  | cons c l' ih =>
    by_cases hm : isRegexMeta c
    · simp only [escapeRegExpL, if_pos hm]
      cases s with
      | nil => rw [litPatMatch_esc_nil]; simp [List.isPrefixOf]
      | cons c' s' =>
        rw [litPatMatch_esc_cons]
        by_cases hc : c' = c
        · subst hc
          by_cases hp : l'.isPrefixOf s' <;> simp [hp, ih s', List.isPrefixOf]
        · have hc' : ¬c = c' := fun h => hc h.symm
          simp [hc, hc', List.isPrefixOf]
    · have h1 : c ≠ '\\' := by intro h; rw [h] at hm; simp [isRegexMeta] at hm
      have h2 : c ≠ '.' := by intro h; rw [h] at hm; simp [isRegexMeta] at hm
      simp only [escapeRegExpL, if_neg hm]
      cases s with
      | nil => rw [litPatMatch_plain_nil _ _ h1]; simp [List.isPrefixOf]
      | cons c' s' =>
        rw [litPatMatch_plain_cons _ _ _ _ h1 h2]
        by_cases hc : c' = c
        · subst hc
          by_cases hp : l'.isPrefixOf s' <;> simp [hp, ih s', List.isPrefixOf]
        · have hc' : ¬c = c' := fun h => hc h.symm
          simp [hc, hc', List.isPrefixOf]

theorem litPatMatch_plain (l : List Char) (hl : ∀ c ∈ l, c ≠ '\\' ∧ c ≠ '.') (s : List Char) :
    litPatMatch l s = if l.isPrefixOf s then some l.length else none := by
  induction l generalizing s with
  | nil => simp [litPatMatch, List.isPrefixOf]
  | cons c l' ih =>
    have hc := hl c (List.mem_cons_self _ _)
    have hl' : ∀ a ∈ l', a ≠ '\\' ∧ a ≠ '.' := fun a ha => hl a (List.mem_cons_of_mem _ ha)
    cases s with
    | nil => rw [litPatMatch_plain_nil _ _ hc.1]; simp [List.isPrefixOf]
    | cons c' s' =>
      rw [litPatMatch_plain_cons _ _ _ _ hc.1 hc.2]
      by_cases hcc : c' = c
      · subst hcc
        by_cases hp : l'.isPrefixOf s' <;> simp [hp, ih hl' s', List.isPrefixOf]
      · have hcc' : ¬c = c' := fun h => hcc h.symm
        simp [hcc, hcc', List.isPrefixOf]

/-! ### Whitespace runs and greedy backtracking -/

theorem wsRunLen_cons (c : Char) (t : List Char) :
    wsRunLen (c :: t) = if isWs c then wsRunLen t + 1 else 0 := rfl

theorem wsRunLen_cons_ws (c : Char) (t : List Char) (h : isWs c = true) :
    wsRunLen (c :: t) = wsRunLen t + 1 := by simp [wsRunLen_cons, h]

theorem wsRunLen_cons_not (c : Char) (t : List Char) (h : isWs c = false) :
    wsRunLen (c :: t) = 0 := by simp [wsRunLen_cons, h]

theorem wsRunLen_append_ws (V t : List Char) (hV : ∀ c ∈ V, isWs c = true) :
    wsRunLen (V ++ t) = V.length + wsRunLen t := by
  induction V with
  | nil => simp
  | cons c V' ih =>
    have hc := hV c (List.mem_cons_self _ _)
    have hV' : ∀ a ∈ V', isWs a = true := fun a ha => hV a (List.mem_cons_of_mem _ ha)
    rw [List.cons_append, wsRunLen_cons_ws _ _ hc, ih hV']
    simp
    omega

theorem wsRun_head_ws (s : List Char) : ∀ j, j < wsRunLen s →
    ∃ c cs, s.drop j = c :: cs ∧ isWs c = true := by
  induction s with
  | nil => intro j hj; simp [wsRunLen] at hj
  | cons c s' ih =>
    intro j hj
    cases hws : isWs c with
    | false => rw [wsRunLen_cons_not _ _ hws] at hj; omega
    | true =>
      rw [wsRunLen_cons_ws _ _ hws] at hj
      cases j with
      | zero => exact ⟨c, s', rfl, hws⟩
      | succ j' => simpa using ih j' (by omega)

theorem greedyDescend_sound (pat s : List Char) :
    ∀ (k j m : Nat), greedyDescend pat s k = some (j, m) →
      litPatMatch pat (s.drop j) = some m := by
  intro k
  induction k with
  | zero =>
    intro j m h
    simp only [greedyDescend] at h
    cases hp : litPatMatch pat s with
    | none => rw [hp] at h; cases h
    | some m' =>
      rw [hp] at h
      simp at h
      obtain ⟨rfl, rfl⟩ := h
      simpa using hp
  | succ k ih =>
    intro j m h
    simp only [greedyDescend] at h
    cases hp : litPatMatch pat (s.drop (k + 1)) with
    | none =>
      rw [hp] at h
      exact ih j m h
    | some m' =>
      rw [hp] at h
      cases h
      exact hp

theorem greedyDescend_top (pat s : List Char) (k m : Nat)
    (h : litPatMatch pat (s.drop k) = some m) :
    greedyDescend pat s k = some (k, m) := by
  cases k with
  | zero => simp only [greedyDescend]; simp only [List.drop_zero] at h; rw [h]; rfl
  | succ k' => simp only [greedyDescend]; rw [h]

theorem greedyDescend_none (pat s : List Char) :
    ∀ (k : Nat), (∀ j, j ≤ k → litPatMatch pat (s.drop j) = none) →
      greedyDescend pat s k = none := by
  intro k
  induction k with
  | zero =>
    intro h
    simp only [greedyDescend]
    rw [show litPatMatch pat s = none from by simpa using h 0 (le_refl 0)]
    rfl
  | succ k ih =>
    intro h
    simp only [greedyDescend]
    rw [h (k + 1) (le_refl _)]
    exact ih fun j hj => h j (le_trans hj (Nat.le_succ _))

/-- Computation of `\s*PAT` when `PAT` cannot match at a whitespace character:
the greedy backtracking is forced to the end of the whitespace run. -/
theorem greedyWsThen_eq (pat s : List Char)
    (hpat : ∀ c cs, isWs c = true → litPatMatch pat (c :: cs) = none) :
    greedyWsThen pat s =
      (litPatMatch pat (s.drop (wsRunLen s))).map (fun m => (wsRunLen s, m)) := by
  unfold greedyWsThen
  cases hK : litPatMatch pat (s.drop (wsRunLen s)) with
  | some m => rw [greedyDescend_top pat s _ m hK]; rfl
  | none =>
    rw [greedyDescend_none pat s (wsRunLen s) ?_]
    · rfl
    · intro j hj
      rcases Nat.lt_or_ge j (wsRunLen s) with hlt | hge
      · obtain ⟨c, cs, hdrop, hws⟩ := wsRun_head_ws s j hlt
        rw [hdrop]
        exact hpat c cs hws
      · have : j = wsRunLen s := le_antisymm hj hge
        rw [this]
        exact hK

theorem ws_ne_of_not_ws {c d : Char} (hc : isWs c = true) (hd : isWs d = false) : d ≠ c := by
  intro h; rw [h] at hd; rw [hc] at hd; cases hd

theorem prefix_cons_false (p : Char) (ps : List Char) (c : Char) (cs : List Char)
    (h : p ≠ c) : (p :: ps).isPrefixOf (c :: cs) = false := by
  have h' : ¬p == c := by simpa using h
  simp [List.isPrefixOf, h']

/-- The scaffold `- source:` cannot match at a whitespace character. -/
theorem litPat_source_ws_fail (c : Char) (cs : List Char) (h : isWs c = true) :
    litPatMatch ("- source:".data) (c :: cs) = none := by
  rw [litPatMatch_plain _ (by decide) _]
  rw [prefix_cons_false _ _ _ _ (ws_ne_of_not_ws h (by decide))]
  rfl

/-- The scaffold `destination:` cannot match at a whitespace character. -/
theorem litPat_dest_ws_fail (c : Char) (cs : List Char) (h : isWs c = true) :
    litPatMatch ("destination:".data) (c :: cs) = none := by
  rw [litPatMatch_plain _ (by decide) _]
  rw [prefix_cons_false _ _ _ _ (ws_ne_of_not_ws h (by decide))]
  rfl

/-- An escaped clean path cannot match at a whitespace character. -/
theorem litPat_clean_ws_fail (p : String) (hp : cleanStr p = true) (c : Char)
    (cs : List Char) (h : isWs c = true) :
    litPatMatch (escapeRegExpL p.data) (c :: cs) = none := by
  rw [litPatMatch_escape]
  simp only [cleanStr, Bool.and_eq_true, Bool.not_eq_true', List.all_eq_true] at hp
  have hne : p.data ≠ [] := by
    intro hcon
    rw [hcon] at hp
    simp at hp
  obtain ⟨p0, prest, hp0⟩ := List.exists_cons_of_ne_nil hne
  have hp0ws : isWs p0 = false := by
    have h2 := hp.2 p0 (by rw [hp0]; exact List.mem_cons_self _ _)
    cases hh : isWs p0
    · rfl
    · rw [hh] at h2
      simp at h2
  rw [hp0, prefix_cons_false _ _ _ _ (ws_ne_of_not_ws h hp0ws)]
  rfl

/-- Computed form of the shared `(\s*- source:\s*)ESCPATH` prefix of the
patcher's source-field patterns, for a clean path: both greedy `\s*`s are
forced to the ends of their whitespace runs, and the escaped path matches
exactly the literal path. -/
theorem matchLabeledAt_src_eq (src : String) (hsrc : cleanStr src = true) (s : List Char) :
    matchLabeledAt ("- source:".data) (escapeRegExpL src.data) s =
      if "- source:".data.isPrefixOf (s.drop (wsRunLen s)) then
        if src.data.isPrefixOf
            ((s.drop (wsRunLen s + 9)).drop (wsRunLen (s.drop (wsRunLen s + 9)))) then
          some (wsRunLen s + 9 + wsRunLen (s.drop (wsRunLen s + 9)),
            wsRunLen s + 9 + wsRunLen (s.drop (wsRunLen s + 9)) + src.data.length)
        else none
      else none := by
  unfold matchLabeledAt
  rw [greedyWsThen_eq _ _ (fun c cs h => litPat_source_ws_fail c cs h)]
  rw [litPatMatch_plain _ (by decide) _]
  by_cases hpre : "- source:".data.isPrefixOf (s.drop (wsRunLen s))
  · rw [if_pos hpre, if_pos hpre]
    have hlen : "- source:".data.length = 9 := by decide
    rw [hlen]
    have hmap : (Option.map (fun m => (wsRunLen s, m)) (some 9) : Option (Nat × Nat)) =
        some (wsRunLen s, 9) := rfl
    rw [hmap]
    dsimp only
    rw [greedyWsThen_eq _ _ (fun c cs h => litPat_clean_ws_fail src hsrc c cs h)]
    rw [litPatMatch_escape]
    by_cases hpre2 : src.data.isPrefixOf
        ((s.drop (wsRunLen s + 9)).drop (wsRunLen (s.drop (wsRunLen s + 9))))
    · rw [if_pos hpre2, if_pos hpre2]
      rfl
    · rw [if_neg hpre2, if_neg hpre2]
      rfl
  · rw [if_neg hpre, if_neg hpre]
    rfl

theorem drop_append_left (a b : List Char) (n : Nat) :
    (a ++ b).drop (a.length + n) = b.drop n := by
  induction a with
  | nil => simp
  | cons x a' ih =>
    simp only [List.cons_append, List.length_cons]
    rw [show a'.length + 1 + n = (a'.length + n) + 1 from by omega, List.drop_succ_cons, ih]

theorem take_append_left (a b : List Char) (n : Nat) :
    (a ++ b).take (a.length + n) = a ++ b.take n := by
  induction a with
  | nil => simp
  | cons x a' ih =>
    simp only [List.cons_append, List.length_cons]
    rw [show a'.length + 1 + n = (a'.length + n) + 1 from by omega, List.take_succ_cons, ih]

/-- Soundness of a successful `(\s*LABEL\s*)ESCPATH` match: the total length
is capture + path, the literal path sits exactly at the capture boundary, and
the capture is at least as long as the label. -/
theorem matchLabeledAt_sound_esc (lbl : List Char) (hlbl : ∀ c ∈ lbl, c ≠ '\\' ∧ c ≠ '.')
    (p : String) (s : List Char) (cap tot : Nat)
    (h : matchLabeledAt lbl (escapeRegExpL p.data) s = some (cap, tot)) :
    lbl.length ≤ cap ∧ tot = cap + p.data.length ∧
      p.data.isPrefixOf (s.drop cap) = true := by
  unfold matchLabeledAt at h
  cases h1 : greedyWsThen lbl s with
  | none => rw [h1] at h; cases h
  | some q1 =>
    obtain ⟨k1, m1⟩ := q1
    rw [h1] at h
    dsimp only at h
    cases h2 : greedyWsThen (escapeRegExpL p.data) (s.drop (k1 + m1)) with
    | none => rw [h2] at h; cases h
    | some q2 =>
      obtain ⟨k2, m2⟩ := q2
      rw [h2] at h
      dsimp only at h
      cases h
      have hs1 := greedyDescend_sound lbl s _ _ _ h1
      rw [litPatMatch_plain _ hlbl _] at hs1
      have hm1 : m1 = lbl.length := by
        by_cases hp : lbl.isPrefixOf (s.drop k1)
        · rw [if_pos hp] at hs1; exact (Option.some.inj hs1).symm
        · rw [if_neg hp] at hs1; cases hs1
      have hs2 := greedyDescend_sound (escapeRegExpL p.data) (s.drop (k1 + m1)) _ _ _ h2
      rw [litPatMatch_escape] at hs2
      have hpre2 : p.data.isPrefixOf ((s.drop (k1 + m1)).drop k2) = true ∧ m2 = p.data.length := by
        by_cases hp : p.data.isPrefixOf ((s.drop (k1 + m1)).drop k2)
        · rw [if_pos hp] at hs2; exact ⟨hp, (Option.some.inj hs2).symm⟩
        · rw [if_neg hp] at hs2; cases hs2
      refine ⟨by omega, by omega, ?_⟩
      have hdd : (s.drop (k1 + m1)).drop k2 = s.drop (k1 + m1 + k2) := by
        rw [List.drop_drop]
      rw [hdd] at hpre2
      exact hpre2.1

/-- The destination substitution of the rename branch is the identity: the
reconciler carries the destination through unchanged, so the pattern built
from the old destination is replaced by the very same text. -/
theorem replaceLabeled_dest_id (d : String) (s : List Char) :
    replaceLabeledAux ("destination:".data) (escapeRegExpL d.data) d.data s = s := by
  have main : ∀ (n : Nat) (s : List Char), s.length ≤ n →
      replaceLabeledAux ("destination:".data) (escapeRegExpL d.data) d.data s = s := by
    intro n
    induction n with
    | zero =>
      intro s hs
      have : s = [] := List.eq_nil_of_length_eq_zero (Nat.le_zero.mp hs)
      subst this
      rfl
    | succ n ih =>
      intro s hs
      cases s with
      | nil => rfl
      | cons c cs =>
        cases hm : matchLabeledAt ("destination:".data) (escapeRegExpL d.data) (c :: cs) with
        | none =>
          rw [replaceLabeledAux_cons_none _ _ _ _ _ hm,
            ih cs (Nat.succ_le_succ_iff.mp hs)]
        | some q =>
          obtain ⟨cap, tot⟩ := q
          obtain ⟨hcap, htot, hprefix⟩ :=
            matchLabeledAt_sound_esc _ (by decide) d _ _ _ hm
          have hcap12 : 12 ≤ cap := by
            have : ("destination:".data).length = 12 := by decide
            omega
          have hmax : max 1 tot = tot := by omega
          rw [replaceLabeledAux_cons_match _ _ _ _ _ _ _ hm, hmax]
          have hdroplen : ((c :: cs).drop tot).length ≤ n := by
            simp only [List.length_drop, List.length_cons]
            simp only [List.length_cons] at hs
            omega
          rw [ih _ hdroplen]
          have hpre : d.data <+: ((c :: cs).drop cap) :=
            List.isPrefixOf_iff_prefix.mp hprefix
          obtain ⟨r, hr⟩ := hpre
          have h1 : (c :: cs).drop tot = ((c :: cs).drop cap).drop d.data.length := by
            rw [List.drop_drop, htot]
          have h2 : ((c :: cs).drop cap).drop d.data.length = r := by
            rw [← hr]
            exact (drop_append_left d.data r 0).trans (by simp)
          rw [h1, h2, List.append_assoc, hr, List.take_append_drop]
  exact main s.length s (le_refl _)

/-! ### The lazy tail of the deletion pattern -/

theorem matchDeleteAt_none (escPath s : List Char)
    (h : matchLabeledAt ("- source:".data) escPath s = none) :
    matchDeleteAt escPath s = none := by
  unfold matchDeleteAt
  rw [h]

theorem matchDeleteAt_some (escPath s : List Char) (cap tot : Nat)
    (h : matchLabeledAt ("- source:".data) escPath s = some (cap, tot)) :
    matchDeleteAt escPath s = (lazyNonDashLen (s.drop tot)).map (fun j => tot + j) := by
  unfold matchDeleteAt
  rw [h]

theorem lazyNonDashLen_at_lookahead (t : List Char) (ht : lookaheadOk t = true) :
    lazyNonDashLen t = some 0 := by
  cases t with
  | nil => rfl
  | cons c cs => simp [lazyNonDashLen, ht]

theorem lookaheadOk_ne_empty_false (t : List Char) (c' : Char) (cs' : List Char)
    (hp : t.drop (wsRunLen t) = c' :: cs') (hne : (c' = '-') = False)
    (htne : t ≠ []) : lookaheadOk t = false := by
  unfold lookaheadOk
  rw [hp]
  simp [htne]
  intro hcon
  rw [hcon] at hne
  simp at hne

theorem lazyNonDashLen_nondash_prefix (a : List Char)
    (ha : ∀ c ∈ a, isWs c = false ∧ c ≠ '-') (t : List Char) :
    lazyNonDashLen (a ++ t) = (lazyNonDashLen t).map (· + a.length) := by
  induction a with
  | nil => simp
  | cons c a' ih =>
    have hc := ha c (List.mem_cons_self _ _)
    have ha' : ∀ x ∈ a', isWs x = false ∧ x ≠ '-' := fun x hx => ha x (List.mem_cons_of_mem _ hx)
    have hla : lookaheadOk (c :: (a' ++ t)) = false := by
      apply lookaheadOk_ne_empty_false _ c (a' ++ t)
      · rw [wsRunLen_cons_not _ _ hc.1]
        rfl
      · simp [hc.2]
      · simp
    rw [List.cons_append]
    simp only [lazyNonDashLen, hla]
    simp only [Bool.false_eq_true, if_false, if_neg hc.2]
    rw [ih ha']
    cases lazyNonDashLen t with
    | none => rfl
    | some j =>
      show (some (j + a'.length + 1) : Option Nat) = some (j + (a'.length + 1))
      exact congrArg some (by omega)

theorem lazyNonDashLen_ws_prefix (V : List Char) (hV : ∀ c ∈ V, isWs c = true)
    (t : List Char) (c' : Char) (cs' : List Char)
    (hafter : t.drop (wsRunLen t) = c' :: cs') (hc' : (c' = '-') = False) :
    lazyNonDashLen (V ++ t) = (lazyNonDashLen t).map (· + V.length) := by
  induction V with
  | nil => simp
  | cons c V' ih =>
    have hc := hV c (List.mem_cons_self _ _)
    have hV' : ∀ x ∈ V', isWs x = true := fun x hx => hV x (List.mem_cons_of_mem _ hx)
    have hcdash : c ≠ '-' := by
      intro hcon
      rw [hcon] at hc
      simp [isWs] at hc
    have hdropfact : (c :: (V' ++ t)).drop (wsRunLen (c :: (V' ++ t))) = c' :: cs' := by
      rw [wsRunLen_cons_ws _ _ hc]
      simp only [List.drop_succ_cons]
      rw [wsRunLen_append_ws V' t hV', drop_append_left V' t (wsRunLen t), hafter]
    have hla : lookaheadOk (c :: (V' ++ t)) = false :=
      lookaheadOk_ne_empty_false _ c' cs' hdropfact hc' (by simp)
    rw [List.cons_append]
    simp only [lazyNonDashLen, hla]
    simp only [Bool.false_eq_true, if_false, if_neg hcdash]
    rw [ih hV']
    cases lazyNonDashLen t with
    | none => rfl
    | some j =>
      show (some (j + V'.length + 1) : Option Nat) = some (j + (V'.length + 1))
      exact congrArg some (by omega)

/-! ### Scanning past match-free regions -/

theorem suffix_split {x y t : List Char} (h : t <:+ x ++ y) :
    t <:+ y ∨ ∃ x', x' <:+ x ∧ x' ≠ [] ∧ t = x' ++ y := by
  induction x with
  | nil => left; simpa using h
  | cons a x' ih =>
    rw [List.cons_append] at h
    rcases List.suffix_cons_iff.mp h with rfl | h'
    · right
      exact ⟨a :: x', List.suffix_refl _, by simp, by simp⟩
    · rcases ih h' with hy | ⟨x'', hsuf, hne, rfl⟩
      · left; exact hy
      · right; exact ⟨x'', hsuf.trans (List.suffix_cons a x'), hne, rfl⟩

theorem replaceLabeled_skip (label escPath rep A B : List Char)
    (h : ∀ a₂, a₂ ≠ [] → a₂ <:+ A → matchLabeledAt label escPath (a₂ ++ B) = none) :
    replaceLabeledAux label escPath rep (A ++ B) = A ++ replaceLabeledAux label escPath rep B := by
  induction A with
  | nil => simp
  | cons a A' ih =>
    have hm : matchLabeledAt label escPath (a :: (A' ++ B)) = none := by
      have := h (a :: A') (by simp) (List.suffix_refl _)
      rw [List.cons_append] at this
      exact this
    rw [List.cons_append, replaceLabeledAux_cons_none _ _ _ _ _ hm,
      ih (fun a₂ hne hsuf => h a₂ hne (hsuf.trans (List.suffix_cons a A')))]
    rfl

theorem removeSpecEntry_skip (escPath A B : List Char)
    (h : ∀ a₂, a₂ ≠ [] → a₂ <:+ A →
      matchLabeledAt ("- source:".data) escPath (a₂ ++ B) = none) :
    removeSpecEntryAux escPath (A ++ B) = A ++ removeSpecEntryAux escPath B := by
  induction A with
  | nil => simp
  | cons a A' ih =>
    have hm : matchDeleteAt escPath (a :: (A' ++ B)) = none := by
      apply matchDeleteAt_none
      have := h (a :: A') (by simp) (List.suffix_refl _)
      rw [List.cons_append] at this
      exact this
    rw [List.cons_append, removeSpecEntryAux_cons_none _ _ _ hm,
      ih (fun a₂ hne hsuf => h a₂ hne (hsuf.trans (List.suffix_cons a A')))]
    rfl

/-! ### Where the source pattern cannot match -/

/-- The scaffold `- source:` is never a prefix of a whitespace-free non-empty
string followed by nothing or a newline: its second character is a space. -/
theorem source_label_not_prefix (v w : List Char) (hv : v ≠ [])
    (hnws : ∀ c ∈ v, isWs c = false)
    (hw : w = [] ∨ ∃ w', w = '\n' :: w') :
    ("- source:".data).isPrefixOf (v ++ w) = false := by
  cases v with
  | nil => cases hv rfl
  | cons c0 v' =>
    cases v' with
    | nil =>
      rcases hw with rfl | ⟨w', rfl⟩
      · simp [List.isPrefixOf]
      · simp [List.isPrefixOf]
    | cons c1 v'' =>
      have h1 := hnws c1 (by simp)
      have hc1 : ¬(' ' = c1) := by
        intro h
        rw [← h] at h1
        simp [isWs] at h1
      simp [List.isPrefixOf, hc1]

/-- A whitespace-free pattern cannot reach past a whitespace (or end)
boundary: matching into `a ++ w` is the same as matching into `a`. -/
theorem isPrefixOf_append_ws (p : List Char) (hp : ∀ c ∈ p, isWs c = false) :
    ∀ (a w : List Char), (w = [] ∨ ∃ c w', w = c :: w' ∧ isWs c = true) →
      p.isPrefixOf (a ++ w) = p.isPrefixOf a := by
  induction p with
  | nil => intro a w _; simp [List.isPrefixOf]
  | cons c p' ih =>
    intro a w hw
    have hc := hp c (List.mem_cons_self _ _)
    have hp' : ∀ x ∈ p', isWs x = false := fun x hx => hp x (List.mem_cons_of_mem _ hx)
    cases a with
    | nil =>
      rcases hw with rfl | ⟨d, w', rfl, hd⟩
      · simp
      · rw [List.nil_append, prefix_cons_false _ _ _ _ (ws_ne_of_not_ws hd hc)]
        simp [List.isPrefixOf]
    | cons b a' =>
      rw [List.cons_append]
      simp only [List.isPrefixOf]
      rw [ih hp' a' w hw]

theorem matchSrc_none_label (src : String) (hsrc : cleanStr src = true) (s : List Char)
    (hfail : ("- source:".data).isPrefixOf (s.drop (wsRunLen s)) = false) :
    matchLabeledAt ("- source:".data) (escapeRegExpL src.data) s = none := by
  rw [matchLabeledAt_src_eq src hsrc s]
  simp [hfail]

theorem matchSrc_none_src (src : String) (hsrc : cleanStr src = true) (s : List Char)
    (hfail : src.data.isPrefixOf
      ((s.drop (wsRunLen s + 9)).drop (wsRunLen (s.drop (wsRunLen s + 9)))) = false) :
    matchLabeledAt ("- source:".data) (escapeRegExpL src.data) s = none := by
  rw [matchLabeledAt_src_eq src hsrc s, hfail]
  simp

/-- No match can start at a whitespace run followed by a non-`-` character. -/
theorem matchSrc_none_ws_block (src : String) (hsrc : cleanStr src = true)
    (V : List Char) (hV : ∀ c ∈ V, isWs c = true) (c : Char) (cs : List Char)
    (hc : isWs c = false) (hcd : '-' ≠ c) :
    matchLabeledAt ("- source:".data) (escapeRegExpL src.data) (V ++ c :: cs) = none := by
  apply matchSrc_none_label src hsrc
  rw [wsRunLen_append_ws V _ hV, wsRunLen_cons_not _ _ hc]
  rw [show V.length + 0 = V.length + 0 from rfl]
  rw [drop_append_left V (c :: cs) 0]
  simp only [List.drop_zero]
  exact prefix_cons_false _ _ _ _ hcd

/-- No match can start at a whitespace run followed by whitespace-free path
characters that run into a newline or the end of the text. -/
theorem matchSrc_none_ws_clean (src : String) (hsrc : cleanStr src = true)
    (V : List Char) (hV : ∀ c ∈ V, isWs c = true) (v : List Char) (hvne : v ≠ [])
    (hnws : ∀ c ∈ v, isWs c = false) (w : List Char)
    (hw : w = [] ∨ ∃ w', w = '\n' :: w') :
    matchLabeledAt ("- source:".data) (escapeRegExpL src.data) (V ++ (v ++ w)) = none := by
  apply matchSrc_none_label src hsrc
  have hrun : wsRunLen (v ++ w) = 0 := by
    obtain ⟨c0, v', rfl⟩ := List.exists_cons_of_ne_nil hvne
    rw [List.cons_append, wsRunLen_cons_not _ _ (hnws c0 (List.mem_cons_self _ _))]
  rw [wsRunLen_append_ws V _ hV, hrun, drop_append_left V (v ++ w) 0]
  simp only [List.drop_zero]
  exact source_label_not_prefix v w hvne hnws hw

/-- No match can start at the head of an entry whose source the acted-on path
is not a prefix of: the label matches but the path comparison fails. -/
theorem matchSrc_none_entryhead (src : String) (hsrc : cleanStr src = true)
    (V : List Char) (hV : ∀ c ∈ V, isWs c = true) (sE : String)
    (hsE : cleanStr sE = true) (hno : src.data.isPrefixOf sE.data = false)
    (T : List Char) (hT : T = [] ∨ ∃ c T', T = c :: T' ∧ isWs c = true) :
    matchLabeledAt ("- source:".data) (escapeRegExpL src.data)
      (V ++ ("- source: ".data ++ (sE.data ++ T))) = none := by
  have hsEne : sE.data ≠ [] := by
    simp only [cleanStr, Bool.and_eq_true, Bool.not_eq_true'] at hsE
    intro hcon
    rw [hcon] at hsE
    simp at hsE
  obtain ⟨e0, e', he0⟩ := List.exists_cons_of_ne_nil hsEne
  have hsEnws : ∀ c ∈ sE.data, isWs c = false := by
    simp only [cleanStr, Bool.and_eq_true, List.all_eq_true] at hsE
    intro c hc
    have h2 := hsE.2 c hc
    cases hh : isWs c
    · rfl
    · rw [hh] at h2
      simp at h2
  have he0nws : isWs e0 = false := hsEnws e0 (by rw [he0]; exact List.mem_cons_self _ _)
  apply matchSrc_none_src src hsrc
  have hrun1 : wsRunLen ("- source: ".data ++ (sE.data ++ T)) = 0 := by
    rw [show ("- source: ".data ++ (sE.data ++ T)) =
      '-' :: (" source: ".data ++ (sE.data ++ T)) from rfl]
    rw [wsRunLen_cons_not _ _ (by decide)]
  rw [wsRunLen_append_ws V _ hV, hrun1]
  have hdrop1 : (V ++ ("- source: ".data ++ (sE.data ++ T))).drop (V.length + 0 + 9) =
      ' ' :: (sE.data ++ T) := by
    rw [show V.length + 0 + 9 = V.length + 9 from by omega, drop_append_left]
    rfl
  rw [hdrop1]
  rw [wsRunLen_cons_ws _ _ (by decide)]
  have hrun2 : wsRunLen (sE.data ++ T) = 0 := by
    rw [he0, List.cons_append, wsRunLen_cons_not _ _ he0nws]
  rw [hrun2]
  simp only [List.drop_succ_cons, List.drop_zero]
  rw [isPrefixOf_append_ws src.data ?hsrcnws sE.data T hT]
  · exact hno
  · simp only [cleanStr, Bool.and_eq_true, List.all_eq_true] at hsrc
    intro c hc
    have h2 := hsrc.2 c hc
    cases hh : isWs c
    · rfl
    · rw [hh] at h2
      simp at h2

theorem cleanStr_ne_nil (p : String) (h : cleanStr p = true) : p.data ≠ [] := by
  simp only [cleanStr, Bool.and_eq_true, Bool.not_eq_true'] at h
  intro hcon
  rw [hcon] at h
  simp at h

theorem cleanStr_nws (p : String) (h : cleanStr p = true) : ∀ c ∈ p.data, isWs c = false := by
  intro c hc
  simp only [cleanStr, Bool.and_eq_true, List.all_eq_true] at h
  have h2 := h.2 c hc
  cases hh : isWs c
  · rfl
  · rw [hh] at h2
    simp at h2

theorem cleanStr_no_dollar (p : String) (h : cleanStr p = true) : ∀ c ∈ p.data, ¬ c = '$' := by
  intro c hc hcc
  simp only [cleanStr, Bool.and_eq_true, List.all_eq_true] at h
  have h2 := h.2 c hc
  rw [hcc] at h2
  simp at h2

theorem specEntryChars_eq (s : Spec) :
    specEntryChars s =
      "  - source: ".data ++
        (s.source.data ++ ("\n    destination: ".data ++ s.destination.data)) := by
  unfold specEntryChars
  simp [List.append_assoc]

/-- Classification of every non-empty suffix of the destination region
`"\n    destination: " ++ d` of a rendered entry: the source pattern matches
at none of them. -/
theorem destRegion_suffix_none (src : String) (hsrc : cleanStr src = true)
    (d : String) (hd : cleanStr d = true) (w : List Char)
    (hw : w = [] ∨ ∃ w', w = '\n' :: w') :
    ∀ a₂, a₂ ≠ [] → a₂ <:+ ("\n    destination: ".data ++ d.data) →
      matchLabeledAt ("- source:".data) (escapeRegExpL src.data) (a₂ ++ w) = none := by
  intro a₂ hne hsuf
  have hdne := cleanStr_ne_nil d hd
  have hdnws := cleanStr_nws d hd
  rcases suffix_split hsuf with h3 | ⟨s3, hs3, hs3ne, rfl⟩
  · have hsub : ∀ c ∈ a₂, isWs c = false :=
      fun c hc => hdnws c (h3.sublist.subset hc)
    exact matchSrc_none_ws_clean src hsrc [] (by simp) a₂ hne hsub w hw
  · rw [List.append_assoc]
    have hmem : s3 ∈ ("\n    destination: ".data).tails := (List.mem_tails _ _).mpr hs3
    have htl : ("\n    destination: ".data).tails =
        ["\n    destination: ".data, "    destination: ".data, "   destination: ".data,
         "  destination: ".data, " destination: ".data, "destination: ".data,
         "estination: ".data, "stination: ".data, "tination: ".data, "ination: ".data,
         "nation: ".data, "ation: ".data, "tion: ".data, "ion: ".data, "on: ".data,
         "n: ".data, ": ".data, " ".data, []] := by decide
    rw [htl] at hmem
    simp only [List.mem_cons, List.not_mem_nil, or_false] at hmem
    rcases hmem with rfl | rfl | rfl | rfl | rfl | rfl | rfl | rfl | rfl | rfl | rfl |
      rfl | rfl | rfl | rfl | rfl | rfl | rfl | rfl
    · exact matchSrc_none_ws_block src hsrc ("\n    ".data) (by decide) 'd'
        ("estination: ".data ++ (d.data ++ w)) (by decide) (by decide)
    · exact matchSrc_none_ws_block src hsrc ("    ".data) (by decide) 'd'
        ("estination: ".data ++ (d.data ++ w)) (by decide) (by decide)
    · exact matchSrc_none_ws_block src hsrc ("   ".data) (by decide) 'd'
        ("estination: ".data ++ (d.data ++ w)) (by decide) (by decide)
    · exact matchSrc_none_ws_block src hsrc ("  ".data) (by decide) 'd'
        ("estination: ".data ++ (d.data ++ w)) (by decide) (by decide)
    · exact matchSrc_none_ws_block src hsrc (" ".data) (by decide) 'd'
        ("estination: ".data ++ (d.data ++ w)) (by decide) (by decide)
    · exact matchSrc_none_ws_block src hsrc [] (by simp) 'd'
        ("estination: ".data ++ (d.data ++ w)) (by decide) (by decide)
    · exact matchSrc_none_ws_block src hsrc [] (by simp) 'e'
        ("stination: ".data ++ (d.data ++ w)) (by decide) (by decide)
    · exact matchSrc_none_ws_block src hsrc [] (by simp) 's'
        ("tination: ".data ++ (d.data ++ w)) (by decide) (by decide)
    · exact matchSrc_none_ws_block src hsrc [] (by simp) 't'
        ("ination: ".data ++ (d.data ++ w)) (by decide) (by decide)
    · exact matchSrc_none_ws_block src hsrc [] (by simp) 'i'
        ("nation: ".data ++ (d.data ++ w)) (by decide) (by decide)
    · exact matchSrc_none_ws_block src hsrc [] (by simp) 'n'
        ("ation: ".data ++ (d.data ++ w)) (by decide) (by decide)
    · exact matchSrc_none_ws_block src hsrc [] (by simp) 'a'
        ("tion: ".data ++ (d.data ++ w)) (by decide) (by decide)
    · exact matchSrc_none_ws_block src hsrc [] (by simp) 't'
        ("ion: ".data ++ (d.data ++ w)) (by decide) (by decide)
    · exact matchSrc_none_ws_block src hsrc [] (by simp) 'i'
        ("on: ".data ++ (d.data ++ w)) (by decide) (by decide)
    · exact matchSrc_none_ws_block src hsrc [] (by simp) 'o'
        ("n: ".data ++ (d.data ++ w)) (by decide) (by decide)
    · exact matchSrc_none_ws_block src hsrc [] (by simp) 'n'
        (": ".data ++ (d.data ++ w)) (by decide) (by decide)
    · exact matchSrc_none_ws_block src hsrc [] (by simp) ':'
        (" ".data ++ (d.data ++ w)) (by decide) (by decide)
    · exact matchSrc_none_ws_clean src hsrc (" ".data) (by decide)
        d.data hdne hdnws w hw
    · cases hs3ne rfl

/-- Classification of every non-empty suffix of a rendered entry whose source
the acted-on path `src` is not a prefix of: the source pattern matches at
none of them (continued by a newline-headed remainder or the end of text). -/
theorem entry_suffix_none (src : String) (hsrc : cleanStr src = true) (e : Spec)
    (hes : cleanStr e.source = true) (hed : cleanStr e.destination = true)
    (hno : src.data.isPrefixOf e.source.data = false)
    (w : List Char) (hw : w = [] ∨ ∃ w', w = '\n' :: w') :
    ∀ a₂, a₂ ≠ [] → a₂ <:+ specEntryChars e →
      matchLabeledAt ("- source:".data) (escapeRegExpL src.data) (a₂ ++ w) = none := by
  intro a₂ hne hsuf
  rw [specEntryChars_eq] at hsuf
  have hdne := cleanStr_ne_nil e.destination hed
  have hdnws := cleanStr_nws e.destination hed
  have hsne := cleanStr_ne_nil e.source hes
  have hsnws := cleanStr_nws e.source hes
  rcases suffix_split hsuf with h1 | ⟨s1, hs1, hs1ne, rfl⟩
  · rcases suffix_split h1 with h2 | ⟨v, hv, hvne, rfl⟩
    · -- inside the destination region
      exact destRegion_suffix_none src hsrc e.destination hed w hw a₂ hne h2
    · -- inside the source path
      rw [List.append_assoc]
      have hsub : ∀ c ∈ v, isWs c = false :=
        fun c hc => hsnws c (hv.sublist.subset hc)
      refine matchSrc_none_ws_clean src hsrc [] (by simp) v hvne hsub
        (("\n    destination: ".data ++ e.destination.data) ++ w) (Or.inr ⟨_, rfl⟩)
  · -- inside the "  - source: " scaffold
    rw [List.append_assoc, List.append_assoc]
    have hmem : s1 ∈ ("  - source: ".data).tails := (List.mem_tails _ _).mpr hs1
    have htl : ("  - source: ".data).tails =
        ["  - source: ".data, " - source: ".data, "- source: ".data, " source: ".data,
         "source: ".data, "ource: ".data, "urce: ".data, "rce: ".data, "ce: ".data,
         "e: ".data, ": ".data, " ".data, []] := by decide
    rw [htl] at hmem
    simp only [List.mem_cons, List.not_mem_nil, or_false] at hmem
    have hT : ("\n    destination: ".data ++ e.destination.data) ++ w =
        '\n' :: (("    destination: ".data ++ e.destination.data) ++ w) := rfl
    rcases hmem with rfl | rfl | rfl | rfl | rfl | rfl | rfl | rfl | rfl | rfl | rfl |
      rfl | rfl
    · exact matchSrc_none_entryhead src hsrc ("  ".data) (by decide) e.source hes hno
        (("\n    destination: ".data ++ e.destination.data) ++ w)
        (Or.inr ⟨'\n', _, hT, by decide⟩)
    · exact matchSrc_none_entryhead src hsrc (" ".data) (by decide) e.source hes hno
        (("\n    destination: ".data ++ e.destination.data) ++ w)
        (Or.inr ⟨'\n', _, hT, by decide⟩)
    · exact matchSrc_none_entryhead src hsrc [] (by simp) e.source hes hno
        (("\n    destination: ".data ++ e.destination.data) ++ w)
        (Or.inr ⟨'\n', _, hT, by decide⟩)
    · exact matchSrc_none_ws_block src hsrc (" ".data) (by decide) 's'
        ("ource: ".data ++ (e.source.data ++
          (("\n    destination: ".data ++ e.destination.data) ++ w))) (by decide) (by decide)
    · exact matchSrc_none_ws_block src hsrc [] (by simp) 's'
        ("ource: ".data ++ (e.source.data ++
          (("\n    destination: ".data ++ e.destination.data) ++ w))) (by decide) (by decide)
    · exact matchSrc_none_ws_block src hsrc [] (by simp) 'o'
        ("urce: ".data ++ (e.source.data ++
          (("\n    destination: ".data ++ e.destination.data) ++ w))) (by decide) (by decide)
    · exact matchSrc_none_ws_block src hsrc [] (by simp) 'u'
        ("rce: ".data ++ (e.source.data ++
          (("\n    destination: ".data ++ e.destination.data) ++ w))) (by decide) (by decide)
    · exact matchSrc_none_ws_block src hsrc [] (by simp) 'r'
        ("ce: ".data ++ (e.source.data ++
          (("\n    destination: ".data ++ e.destination.data) ++ w))) (by decide) (by decide)
    · exact matchSrc_none_ws_block src hsrc [] (by simp) 'c'
        ("e: ".data ++ (e.source.data ++
          (("\n    destination: ".data ++ e.destination.data) ++ w))) (by decide) (by decide)
    · exact matchSrc_none_ws_block src hsrc [] (by simp) 'e'
        (": ".data ++ (e.source.data ++
          (("\n    destination: ".data ++ e.destination.data) ++ w))) (by decide) (by decide)
    · exact matchSrc_none_ws_block src hsrc [] (by simp) ':'
        (" ".data ++ (e.source.data ++
          (("\n    destination: ".data ++ e.destination.data) ++ w))) (by decide) (by decide)
    · exact matchSrc_none_ws_clean src hsrc (" ".data) (by decide) e.source.data hsne hsnws
        (("\n    destination: ".data ++ e.destination.data) ++ w) (Or.inr ⟨_, rfl⟩)
    · cases hs1ne rfl

theorem blockChars_cons (e : Spec) (rest : List Spec) :
    blockChars (e :: rest) = specEntryChars e ++ blockTail rest := by
  cases rest with
  | nil => simp [blockChars, blockTail]
  | cons r rs => rfl

theorem blockTail_shape (L : List Spec) :
    blockTail L = [] ∨ ∃ w', blockTail L = '\n' :: w' := by
  cases L with
  | nil => left; rfl
  | cons r rs => right; exact ⟨_, rfl⟩

theorem matchSrc_none_nil (src : String) (hsrc : cleanStr src = true) :
    matchLabeledAt ("- source:".data) (escapeRegExpL src.data) [] = none := by
  rw [matchLabeledAt_src_eq src hsrc]
  simp [List.isPrefixOf]

/-- Prepending whitespace only lengthens the leading `\s*` of a match: the
match outcome shifts by the prepended length. -/
theorem matchSrc_ws_shift (src : String) (hsrc : cleanStr src = true)
    (V : List Char) (hV : ∀ c ∈ V, isWs c = true) (t : List Char) :
    matchLabeledAt ("- source:".data) (escapeRegExpL src.data) (V ++ t) =
      (matchLabeledAt ("- source:".data) (escapeRegExpL src.data) t).map
        (fun p => (V.length + p.1, V.length + p.2)) := by
  rw [matchLabeledAt_src_eq src hsrc, matchLabeledAt_src_eq src hsrc]
  rw [wsRunLen_append_ws V t hV]
  rw [drop_append_left V t (wsRunLen t)]
  have h2 : (V ++ t).drop (V.length + wsRunLen t + 9) = t.drop (wsRunLen t + 9) := by
    rw [show V.length + wsRunLen t + 9 = V.length + (wsRunLen t + 9) from by omega]
    exact drop_append_left V t (wsRunLen t + 9)
  rw [h2]
  by_cases hp1 : ("- source:".data).isPrefixOf (t.drop (wsRunLen t))
  · rw [if_pos hp1, if_pos hp1]
    by_cases hp2 : src.data.isPrefixOf
        ((t.drop (wsRunLen t + 9)).drop (wsRunLen (t.drop (wsRunLen t + 9))))
    · rw [if_pos hp2, if_pos hp2, Option.map_some']
      exact congrArg some (Prod.ext (by omega) (by omega))
    · rw [if_neg hp2, if_neg hp2]
      rfl
  · rw [if_neg hp1, if_neg hp1]
    rfl

theorem matchDelete_ws_shift (src : String) (hsrc : cleanStr src = true)
    (V : List Char) (hV : ∀ c ∈ V, isWs c = true) (t : List Char) :
    matchDeleteAt (escapeRegExpL src.data) (V ++ t) =
      (matchDeleteAt (escapeRegExpL src.data) t).map (fun j => V.length + j) := by
  cases hm : matchLabeledAt ("- source:".data) (escapeRegExpL src.data) t with
  | none =>
    rw [matchDeleteAt_none _ _ hm]
    apply matchDeleteAt_none
    rw [matchSrc_ws_shift src hsrc V hV t, hm]
    rfl
  | some q =>
    obtain ⟨cap, tot⟩ := q
    have hshift : matchLabeledAt ("- source:".data) (escapeRegExpL src.data) (V ++ t) =
        some (V.length + cap, V.length + tot) := by
      rw [matchSrc_ws_shift src hsrc V hV t, hm]
      rfl
    rw [matchDeleteAt_some _ _ _ _ hshift, matchDeleteAt_some _ _ _ _ hm]
    have hdrop : (V ++ t).drop (V.length + tot) = t.drop tot := drop_append_left V t tot
    rw [hdrop]
    cases lazyNonDashLen (t.drop tot) with
    | none => rfl
    | some j =>
      show (some (V.length + tot + j) : Option Nat) = some (V.length + (tot + j))
      exact congrArg some (by omega)

theorem replaceLabeledAux_match_any (label escPath rep s : List Char) (cap tot : Nat)
    (hne : s ≠ []) (h : matchLabeledAt label escPath s = some (cap, tot)) :
    replaceLabeledAux label escPath rep s =
      s.take cap ++ rep ++ replaceLabeledAux label escPath rep (s.drop (max 1 tot)) := by
  cases s with
  | nil => cases hne rfl
  | cons c cs => exact replaceLabeledAux_cons_match label escPath rep c cs cap tot h

theorem removeSpecEntryAux_match_any (escPath s : List Char) (tot : Nat)
    (hne : s ≠ []) (h : matchDeleteAt escPath s = some tot) :
    removeSpecEntryAux escPath s = removeSpecEntryAux escPath (s.drop (max 1 tot)) := by
  cases s with
  | nil => cases hne rfl
  | cons c cs => exact removeSpecEntryAux_cons_match escPath c cs tot h

/-- Positive computation: at the head of an entry whose source the acted-on
path is a prefix of, the source pattern matches with the capture ending right
after the space of `- source: `. -/
theorem matchSrc_at_entryhead (src : String) (hsrc : cleanStr src = true)
    (V : List Char) (hV : ∀ c ∈ V, isWs c = true) (sE : String)
    (hsE : cleanStr sE = true) (hpre : src.data.isPrefixOf sE.data = true)
    (T : List Char) (hT : T = [] ∨ ∃ c T', T = c :: T' ∧ isWs c = true) :
    matchLabeledAt ("- source:".data) (escapeRegExpL src.data)
      (V ++ ("- source: ".data ++ (sE.data ++ T))) =
      some (V.length + 10, V.length + 10 + src.data.length) := by
  obtain ⟨e0, e', he0⟩ := List.exists_cons_of_ne_nil (cleanStr_ne_nil sE hsE)
  have he0nws : isWs e0 = false :=
    cleanStr_nws sE hsE e0 (by rw [he0]; exact List.mem_cons_self _ _)
  rw [matchLabeledAt_src_eq src hsrc]
  have hrun1 : wsRunLen ("- source: ".data ++ (sE.data ++ T)) = 0 := by
    rw [show "- source: ".data ++ (sE.data ++ T) =
      '-' :: (" source: ".data ++ (sE.data ++ T)) from rfl,
      wsRunLen_cons_not _ _ (by decide)]
  rw [wsRunLen_append_ws V _ hV, hrun1, drop_append_left V _ 0]
  simp only [List.drop_zero]
  have hlbl : ("- source:".data).isPrefixOf ("- source: ".data ++ (sE.data ++ T)) = true :=
    List.isPrefixOf_iff_prefix.mpr ⟨' ' :: (sE.data ++ T), rfl⟩
  rw [hlbl, if_pos rfl]
  have hdrop9 : (V ++ ("- source: ".data ++ (sE.data ++ T))).drop (V.length + 0 + 9) =
      ' ' :: (sE.data ++ T) := by
    rw [show V.length + 0 + 9 = V.length + 9 from by omega, drop_append_left]
    rfl
  rw [hdrop9, wsRunLen_cons_ws _ _ (by decide)]
  have hrun2 : wsRunLen (sE.data ++ T) = 0 := by
    rw [he0, List.cons_append, wsRunLen_cons_not _ _ he0nws]
  rw [hrun2, List.drop_succ_cons, List.drop_zero]
  rw [isPrefixOf_append_ws src.data (cleanStr_nws src hsrc) sE.data T hT, hpre, if_pos rfl]

theorem contains_dash_false_nws (d : String) (hd : cleanStr d = true)
    (hdash : d.data.contains '-' = false) : ∀ c ∈ d.data, isWs c = false ∧ c ≠ '-' := by
  intro c hc
  refine ⟨cleanStr_nws d hd c hc, ?_⟩
  intro hcon
  subst hcon
  have helem : d.data.elem '-' = true := List.elem_eq_true_of_mem hc
  rw [show d.data.contains '-' = d.data.elem '-' from rfl, helem] at hdash
  cases hdash

theorem wsRunLen_entryScaffold (Z : List Char) :
    wsRunLen ("  - source: ".data ++ Z) = 2 := by
  show wsRunLen (' ' :: ' ' :: '-' :: (" source: ".data ++ Z)) = 2
  rw [wsRunLen_cons_ws _ _ (by decide), wsRunLen_cons_ws _ _ (by decide),
    wsRunLen_cons_not _ _ (by decide)]

theorem drop_entryScaffold (Z : List Char) :
    ("  - source: ".data ++ Z).drop 2 = '-' :: (" source: ".data ++ Z) := rfl

/-- The lookahead of the deletion pattern accepts what follows an entry:
either the end of the block or the joining newline followed by the next
entry's `  - source: ` scaffold. -/
theorem lookaheadOk_blockTail (L : List Spec) : lookaheadOk (blockTail L) = true := by
  cases L with
  | nil => rfl
  | cons p ps =>
    show lookaheadOk ('\n' :: blockChars (p :: ps)) = true
    rw [blockChars_cons, specEntryChars_eq, List.append_assoc]
    unfold lookaheadOk
    rw [wsRunLen_cons_ws _ _ (by decide), wsRunLen_entryScaffold, List.drop_succ_cons,
      drop_entryScaffold]
    simp

/-- Positive computation of the full deletion pattern at the head of the
deleted entry: it consumes the scaffold, the source, and the lazy tail up to
(but not including) what follows the entry. -/
theorem matchDelete_at_entryhead (src : String) (hsrc : cleanStr src = true)
    (V : List Char) (hV : ∀ c ∈ V, isWs c = true)
    (d : String) (hd : cleanStr d = true) (hdash : d.data.contains '-' = false)
    (w : List Char) (hwlook : lookaheadOk w = true) :
    matchDeleteAt (escapeRegExpL src.data)
      (V ++ ("- source: ".data ++ (src.data ++ ("\n    destination: ".data ++ (d.data ++ w)))))
      = some (V.length + 10 + src.data.length + (18 + d.data.length)) := by
  have hT : ("\n    destination: ".data ++ (d.data ++ w)) = [] ∨
      ∃ c T', ("\n    destination: ".data ++ (d.data ++ w)) = c :: T' ∧ isWs c = true :=
    Or.inr ⟨'\n', _, rfl, by decide⟩
  have hm := matchSrc_at_entryhead src hsrc V hV src hsrc
    (List.isPrefixOf_iff_prefix.mpr (List.prefix_refl _))
    ("\n    destination: ".data ++ (d.data ++ w)) hT
  rw [matchDeleteAt_some _ _ _ _ hm]
  have h10 : ("- source: ".data).length = 10 := by decide
  have hdrop : (V ++ ("- source: ".data ++
      (src.data ++ ("\n    destination: ".data ++ (d.data ++ w))))).drop
        (V.length + 10 + src.data.length) =
      "\n    destination: ".data ++ (d.data ++ w) := by
    rw [show V.length + 10 + src.data.length = V.length + (10 + src.data.length) from by omega,
      drop_append_left]
    rw [show 10 + src.data.length = ("- source: ".data).length + src.data.length from by
      rw [h10], drop_append_left]
    rw [show src.data.length = src.data.length + 0 from by omega, drop_append_left]
    rfl
  rw [hdrop]
  have hprops := contains_dash_false_nws d hd hdash
  obtain ⟨d0, d', hd0⟩ := List.exists_cons_of_ne_nil (cleanStr_ne_nil d hd)
  have hd0p := hprops d0 (by rw [hd0]; exact List.mem_cons_self _ _)
  have hstepA : lazyNonDashLen ("\n    destination: ".data ++ (d.data ++ w)) =
      (lazyNonDashLen ("destination:".data ++ ([' '] ++ (d.data ++ w)))).map (· + 5) := by
    rw [show "\n    destination: ".data ++ (d.data ++ w) =
      "\n    ".data ++ ("destination:".data ++ ([' '] ++ (d.data ++ w))) from rfl]
    exact lazyNonDashLen_ws_prefix "\n    ".data (by decide) _ 'd'
      ("estination:".data ++ ([' '] ++ (d.data ++ w))) rfl (by decide)
  have hstepB : lazyNonDashLen ("destination:".data ++ ([' '] ++ (d.data ++ w))) =
      (lazyNonDashLen ([' '] ++ (d.data ++ w))).map (· + 12) := by
    have := lazyNonDashLen_nondash_prefix ("destination:".data) (by decide)
      ([' '] ++ (d.data ++ w))
    simpa using this
  have hafterC : (d.data ++ w).drop (wsRunLen (d.data ++ w)) = d0 :: (d' ++ w) := by
    rw [hd0, List.cons_append, wsRunLen_cons_not _ _ hd0p.1, List.drop_zero]
  have hstepC : lazyNonDashLen ([' '] ++ (d.data ++ w)) =
      (lazyNonDashLen (d.data ++ w)).map (· + 1) := by
    have := lazyNonDashLen_ws_prefix [' '] (by decide) (d.data ++ w) d0 (d' ++ w)
      hafterC (eq_false hd0p.2)
    simpa using this
  have hstepD : lazyNonDashLen (d.data ++ w) = (lazyNonDashLen w).map (· + d.data.length) :=
    lazyNonDashLen_nondash_prefix d.data hprops w
  rw [hstepA, hstepB, hstepC, hstepD, lazyNonDashLen_at_lookahead w hwlook]
  show (some (V.length + 10 + src.data.length + (0 + d.data.length + 1 + 12 + 5)) :
    Option Nat) = some (V.length + 10 + src.data.length + (18 + d.data.length))
  exact congrArg some (by omega)

theorem specEntryChars_ne_nil (e : Spec) : specEntryChars e ≠ [] := by
  unfold specEntryChars
  simp

theorem retargetIn_pos (src new : String) (e : Spec) (h : e.source = src) :
    retargetIn src new e = { source := new, destination := e.destination } := by
  unfold retargetIn
  rw [if_pos h]

theorem retargetIn_neg (src new : String) (e : Spec) (h : e.source ≠ src) :
    retargetIn src new e = e := by
  unfold retargetIn
  rw [if_neg h]

/-- The rename substitution on a canonical block acts entry-wise: every entry
whose source is exactly the old path has its source text replaced by the new
path, and no other byte of the block changes. -/
theorem renameBlock (src new : String) (hsrc : cleanStr src = true) :
    ∀ (L : List Spec) (V : List Char),
      (∀ c ∈ V, isWs c = true) →
      (∀ e ∈ L, cleanStr e.source = true) →
      (∀ e ∈ L, cleanStr e.destination = true) →
      (∀ e ∈ L, src.data.isPrefixOf e.source.data = true → e.source = src) →
      replaceLabeledAux ("- source:".data) (escapeRegExpL src.data) new.data
        (V ++ blockChars L) = V ++ blockChars (L.map (retargetIn src new)) := by
  intro L
  induction L with
  | nil =>
    intro V hV _ _ _
    show replaceLabeledAux _ _ _ (V ++ []) = V ++ blockChars []
    rw [replaceLabeled_skip _ _ _ V [] ?_, replaceLabeledAux_nil]
    · rfl
    · intro a₂ hne hsuf
      have ha₂ : ∀ c ∈ a₂, isWs c = true := fun c hc => hV c (hsuf.sublist.subset hc)
      have hshift := matchSrc_ws_shift src hsrc a₂ ha₂ []
      rw [matchSrc_none_nil src hsrc] at hshift
      simpa using hshift
  | cons e rest ih =>
    intro V hV hLs hLd hpre
    have hes := hLs e (List.mem_cons_self _ _)
    have hed := hLd e (List.mem_cons_self _ _)
    have hLs' : ∀ x ∈ rest, cleanStr x.source = true :=
      fun x hx => hLs x (List.mem_cons_of_mem _ hx)
    have hLd' : ∀ x ∈ rest, cleanStr x.destination = true :=
      fun x hx => hLd x (List.mem_cons_of_mem _ hx)
    have hpre' : ∀ x ∈ rest, src.data.isPrefixOf x.source.data = true → x.source = src :=
      fun x hx => hpre x (List.mem_cons_of_mem _ hx)
    rw [blockChars_cons]
    by_cases hm : src.data.isPrefixOf e.source.data = true
    · have hesrc : e.source = src := hpre e (List.mem_cons_self _ _) hm
      have hshape : specEntryChars e ++ blockTail rest =
          "  ".data ++ ("- source: ".data ++ (e.source.data ++
            ("\n    destination: ".data ++ (e.destination.data ++ blockTail rest)))) := by
        rw [specEntryChars_eq,
          show ("  - source: ".data : List Char) = "  ".data ++ "- source: ".data from rfl]
        simp [List.append_assoc]
      have hcore : matchLabeledAt ("- source:".data) (escapeRegExpL src.data)
          (specEntryChars e ++ blockTail rest) = some (12, 12 + src.data.length) := by
        rw [hshape]
        exact matchSrc_at_entryhead src hsrc ("  ".data) (by decide) e.source hes hm
          ("\n    destination: ".data ++ (e.destination.data ++ blockTail rest))
          (Or.inr ⟨'\n', _, rfl, by decide⟩)
      have hfull : matchLabeledAt ("- source:".data) (escapeRegExpL src.data)
          (V ++ (specEntryChars e ++ blockTail rest)) =
          some (V.length + 12, V.length + (12 + src.data.length)) := by
        rw [matchSrc_ws_shift src hsrc V hV, hcore]
        rfl
      rw [replaceLabeledAux_match_any _ _ _ _ _ _
        (by simp [specEntryChars_ne_nil]) hfull]
      have htake : (V ++ (specEntryChars e ++ blockTail rest)).take (V.length + 12) =
          V ++ "  - source: ".data := by
        rw [take_append_left V _ 12]
        congr 1
      have hdrop : (V ++ (specEntryChars e ++ blockTail rest)).drop
          (max 1 (V.length + (12 + src.data.length))) =
          "\n    destination: ".data ++ (e.destination.data ++ blockTail rest) := by
        rw [show max 1 (V.length + (12 + src.data.length)) =
          V.length + (12 + src.data.length) from by omega]
        rw [drop_append_left V _ _, specEntryChars_eq]
        simp only [List.append_assoc]
        rw [show 12 + src.data.length = ("  - source: ".data).length + src.data.length
          from by rw [show ("  - source: ".data).length = 12 from by decide]]
        rw [drop_append_left, hesrc]
        rw [show src.data.length = src.data.length + 0 from by omega, drop_append_left]
        simp
      rw [htake, hdrop, ← List.append_assoc]
      rw [replaceLabeled_skip _ _ _ _ _
        (destRegion_suffix_none src hsrc e.destination hed _ (blockTail_shape rest))]
      rw [List.map_cons, blockChars_cons, retargetIn_pos src new e hesrc]
      cases rest with
      | nil =>
        rw [show blockTail ([] : List Spec) = [] from rfl, replaceLabeledAux_nil]
        show V ++ "  - source: ".data ++ new.data ++
            (("\n    destination: ".data ++ e.destination.data) ++ []) =
          V ++ (specEntryChars ⟨new, e.destination⟩ ++ blockTail (List.map _ []))
        simp [specEntryChars, List.append_assoc, blockTail]
      | cons r rs =>
        rw [show blockTail (r :: rs) = ['\n'] ++ blockChars (r :: rs) from rfl]
        rw [ih ['\n'] (by decide) hLs' hLd' hpre']
        show V ++ "  - source: ".data ++ new.data ++
            (("\n    destination: ".data ++ e.destination.data) ++
              ('\n' :: blockChars (List.map (retargetIn src new) (r :: rs)))) =
          V ++ (specEntryChars ⟨new, e.destination⟩ ++
            blockTail (List.map (retargetIn src new) (r :: rs)))
        simp [specEntryChars, List.append_assoc, blockTail]
    · have hmf : src.data.isPrefixOf e.source.data = false := by
        revert hm
        cases src.data.isPrefixOf e.source.data <;> simp
      have hcond : ∀ a₂, a₂ ≠ [] → a₂ <:+ (V ++ specEntryChars e) →
          matchLabeledAt ("- source:".data) (escapeRegExpL src.data)
            (a₂ ++ blockTail rest) = none := by
        intro a₂ h2ne hsuf
        rcases suffix_split hsuf with hE | ⟨V', hV', hV'ne, rfl⟩
        · exact entry_suffix_none src hsrc e hes hed hmf _ (blockTail_shape rest) a₂ h2ne hE
        · rw [List.append_assoc]
          have hV'ws : ∀ c ∈ V', isWs c = true := fun c hc => hV c (hV'.sublist.subset hc)
          rw [matchSrc_ws_shift src hsrc V' hV'ws]
          rw [entry_suffix_none src hsrc e hes hed hmf _ (blockTail_shape rest)
            (specEntryChars e) (specEntryChars_ne_nil e) (List.suffix_refl _)]
          rfl
      rw [← List.append_assoc, replaceLabeled_skip _ _ _ _ _ hcond]
      have hre : retargetIn src new e = e := by
        apply retargetIn_neg
        intro hcon
        rw [hcon] at hmf
        rw [List.isPrefixOf_iff_prefix.mpr (List.prefix_refl _)] at hmf
        cases hmf
      rw [List.map_cons, blockChars_cons, hre]
      cases rest with
      | nil =>
        rw [show blockTail ([] : List Spec) = [] from rfl, replaceLabeledAux_nil]
        show (V ++ specEntryChars e) ++ [] =
          V ++ (specEntryChars e ++ blockTail (List.map (retargetIn src new) []))
        simp [blockTail]
      | cons r rs =>
        rw [show blockTail (r :: rs) = ['\n'] ++ blockChars (r :: rs) from rfl]
        rw [ih ['\n'] (by decide) hLs' hLd' hpre']
        show (V ++ specEntryChars e) ++ ('\n' :: blockChars (List.map (retargetIn src new) (r :: rs))) =
          V ++ (specEntryChars e ++ blockTail (List.map (retargetIn src new) (r :: rs)))
        simp [blockTail, List.append_assoc]

/-- The deletion pattern leaves a canonical block untouched when the deleted
path is a prefix of none of the block's sources. -/
theorem blockNoMatch (src : String) (hsrc : cleanStr src = true) :
    ∀ (L : List Spec) (V : List Char),
      (∀ c ∈ V, isWs c = true) →
      (∀ e ∈ L, cleanStr e.source = true) →
      (∀ e ∈ L, cleanStr e.destination = true) →
      (∀ e ∈ L, src.data.isPrefixOf e.source.data = false) →
      removeSpecEntryAux (escapeRegExpL src.data) (V ++ blockChars L) =
        V ++ blockChars L := by
  intro L
  induction L with
  | nil =>
    intro V hV _ _ _
    show removeSpecEntryAux _ (V ++ []) = V ++ blockChars []
    rw [removeSpecEntry_skip _ V [] ?_, removeSpecEntryAux_nil]
    · rfl
    · intro a₂ hne hsuf
      have ha₂ : ∀ c ∈ a₂, isWs c = true := fun c hc => hV c (hsuf.sublist.subset hc)
      have hshift := matchSrc_ws_shift src hsrc a₂ ha₂ []
      rw [matchSrc_none_nil src hsrc] at hshift
      simpa using hshift
  | cons e rest ih =>
    intro V hV hLs hLd hno
    have hes := hLs e (List.mem_cons_self _ _)
    have hed := hLd e (List.mem_cons_self _ _)
    have hnoe := hno e (List.mem_cons_self _ _)
    have hLs' : ∀ x ∈ rest, cleanStr x.source = true :=
      fun x hx => hLs x (List.mem_cons_of_mem _ hx)
    have hLd' : ∀ x ∈ rest, cleanStr x.destination = true :=
      fun x hx => hLd x (List.mem_cons_of_mem _ hx)
    have hno' : ∀ x ∈ rest, src.data.isPrefixOf x.source.data = false :=
      fun x hx => hno x (List.mem_cons_of_mem _ hx)
    rw [blockChars_cons]
    have hcond : ∀ a₂, a₂ ≠ [] → a₂ <:+ (V ++ specEntryChars e) →
        matchLabeledAt ("- source:".data) (escapeRegExpL src.data)
          (a₂ ++ blockTail rest) = none := by
      intro a₂ h2ne hsuf
      rcases suffix_split hsuf with hE | ⟨V', hV', hV'ne, rfl⟩
      · exact entry_suffix_none src hsrc e hes hed hnoe _ (blockTail_shape rest) a₂ h2ne hE
      · rw [List.append_assoc]
        have hV'ws : ∀ c ∈ V', isWs c = true := fun c hc => hV c (hV'.sublist.subset hc)
        rw [matchSrc_ws_shift src hsrc V' hV'ws]
        rw [entry_suffix_none src hsrc e hes hed hnoe _ (blockTail_shape rest)
          (specEntryChars e) (specEntryChars_ne_nil e) (List.suffix_refl _)]
        rfl
    rw [← List.append_assoc, removeSpecEntry_skip _ _ _ hcond]
    congr 1
    cases rest with
    | nil => rfl
    | cons r rs =>
      show removeSpecEntryAux _ (['\n'] ++ blockChars (r :: rs)) =
        '\n' :: blockChars (r :: rs)
      rw [ih ['\n'] (by decide) hLs' hLd' hno']
      rfl

/-- The deletion pattern on a canonical block removes exactly the entry whose
source is the deleted path, together with the separating newline and any
leading whitespace when the entry is first. -/
theorem deleteBlock (src : String) (hsrc : cleanStr src = true) :
    ∀ (pre : List Spec) (cur : Spec) (post : List Spec) (V : List Char),
      (∀ c ∈ V, isWs c = true) →
      (∀ e ∈ pre ++ cur :: post, cleanStr e.source = true) →
      (∀ e ∈ pre ++ cur :: post, cleanStr e.destination = true) →
      (∀ e ∈ pre, src.data.isPrefixOf e.source.data = false) →
      (∀ e ∈ post, src.data.isPrefixOf e.source.data = false) →
      cur.source = src →
      cur.destination.data.contains '-' = false →
      removeSpecEntryAux (escapeRegExpL src.data) (V ++ blockChars (pre ++ cur :: post)) =
        (if pre = [] then blockTail post else V ++ blockChars (pre ++ post)) := by
  intro pre
  induction pre with
  | nil =>
    intro cur post V hV hLs hLd _ hnopost hcur hdash
    have hcd : cleanStr cur.destination = true := hLd cur (by simp)
    rw [if_pos rfl]
    have hmatch : matchDeleteAt (escapeRegExpL src.data)
        (V ++ blockChars ([] ++ cur :: post)) =
        some ((V ++ "  ".data).length + 10 + src.data.length +
          (18 + cur.destination.data.length)) := by
      rw [List.nil_append, blockChars_cons, specEntryChars_eq, hcur]
      rw [show ("  - source: ".data : List Char) = "  ".data ++ "- source: ".data from rfl]
      simp only [List.append_assoc]
      rw [← List.append_assoc V ("  ".data) _]
      exact matchDelete_at_entryhead src hsrc (V ++ "  ".data)
        (fun c hc => (List.mem_append.mp hc).elim (fun h => hV c h)
          (fun h => (by decide : ∀ x ∈ ("  ".data : List Char), isWs x = true) c h))
        cur.destination hcd hdash (blockTail post) (lookaheadOk_blockTail post)
    rw [removeSpecEntryAux_match_any _ _ _
      (by rw [List.nil_append, blockChars_cons]; simp [specEntryChars_ne_nil]) hmatch]
    have hdroptext : (V ++ blockChars ([] ++ cur :: post)).drop
        (max 1 ((V ++ "  ".data).length + 10 + src.data.length +
          (18 + cur.destination.data.length))) = blockTail post := by
      rw [show max 1 ((V ++ "  ".data).length + 10 + src.data.length +
          (18 + cur.destination.data.length)) =
          (V ++ "  ".data).length + 10 + src.data.length +
          (18 + cur.destination.data.length) from Nat.max_eq_right (by omega)]
      rw [List.nil_append, blockChars_cons, specEntryChars_eq, hcur]
      rw [show ("  - source: ".data : List Char) = "  ".data ++ "- source: ".data from rfl]
      simp only [List.append_assoc]
      rw [← List.append_assoc V ("  ".data) _]
      rw [show (V ++ "  ".data).length + 10 + src.data.length +
          (18 + cur.destination.data.length) =
          (V ++ "  ".data).length + (("- source: ".data : List Char).length +
            (src.data.length + (("\n    destination: ".data : List Char).length +
              (cur.destination.data.length + 0)))) from by
        rw [show (("- source: ".data : List Char)).length = 10 from rfl,
          show (("\n    destination: ".data : List Char)).length = 18 from rfl]
        omega]
      rw [drop_append_left, drop_append_left, drop_append_left, drop_append_left,
        drop_append_left]
      exact List.drop_zero _
    rw [hdroptext]
    cases post with
    | nil => rfl
    | cons r rs =>
      show removeSpecEntryAux _ (['\n'] ++ blockChars (r :: rs)) =
        blockTail (r :: rs)
      rw [blockNoMatch src hsrc (r :: rs) ['\n'] (by decide)
        (fun x hx => hLs x (by simp [hx])) (fun x hx => hLd x (by simp [hx]))
        hnopost]
      rfl
  | cons e pre' ih =>
    intro cur post V hV hLs hLd hnopre hnopost hcur hdash
    have hes : cleanStr e.source = true := hLs e (by simp)
    have hed : cleanStr e.destination = true := hLd e (by simp)
    have hnoe := hnopre e (List.mem_cons_self _ _)
    have hLs' : ∀ x ∈ pre' ++ cur :: post, cleanStr x.source = true :=
      fun x hx => hLs x (by simp [List.mem_append] at hx ⊢; tauto)
    have hLd' : ∀ x ∈ pre' ++ cur :: post, cleanStr x.destination = true :=
      fun x hx => hLd x (by simp [List.mem_append] at hx ⊢; tauto)
    have hnopre' : ∀ x ∈ pre', src.data.isPrefixOf x.source.data = false :=
      fun x hx => hnopre x (List.mem_cons_of_mem _ hx)
    rw [List.cons_append, blockChars_cons]
    have hcond : ∀ a₂, a₂ ≠ [] → a₂ <:+ (V ++ specEntryChars e) →
        matchLabeledAt ("- source:".data) (escapeRegExpL src.data)
          (a₂ ++ blockTail (pre' ++ cur :: post)) = none := by
      intro a₂ h2ne hsuf
      rcases suffix_split hsuf with hE | ⟨V', hV', hV'ne, rfl⟩
      · exact entry_suffix_none src hsrc e hes hed hnoe _
          (blockTail_shape (pre' ++ cur :: post)) a₂ h2ne hE
      · rw [List.append_assoc]
        have hV'ws : ∀ c ∈ V', isWs c = true := fun c hc => hV c (hV'.sublist.subset hc)
        rw [matchSrc_ws_shift src hsrc V' hV'ws]
        rw [entry_suffix_none src hsrc e hes hed hnoe _
          (blockTail_shape (pre' ++ cur :: post))
          (specEntryChars e) (specEntryChars_ne_nil e) (List.suffix_refl _)]
        rfl
    rw [← List.append_assoc, removeSpecEntry_skip _ _ _ hcond]
    have hbt : blockTail (pre' ++ cur :: post) =
        ['\n'] ++ blockChars (pre' ++ cur :: post) := by
      cases pre' with
      | nil => rfl
      | cons p ps => rfl
    rw [hbt, ih cur post ['\n'] (by decide) hLs' hLd' hnopre' hnopost hcur hdash]
    cases hpre' : pre' with
    | nil =>
      rw [if_pos rfl, if_neg (by simp : ¬(e :: ([] : List Spec) = []))]
      show (V ++ specEntryChars e) ++ blockTail post = V ++ blockChars ((e :: []) ++ post)
      rw [List.cons_append, List.nil_append, blockChars_cons, List.append_assoc]
    | cons p ps =>
      rw [if_neg (by simp), if_neg (by simp)]
      show (V ++ specEntryChars e) ++ ('\n' :: blockChars ((p :: ps) ++ post)) =
        V ++ blockChars ((e :: p :: ps) ++ post)
      rw [show ((e :: p :: ps) ++ post) = e :: ((p :: ps) ++ post) from rfl,
        blockChars_cons, show blockTail ((p :: ps) ++ post) =
          '\n' :: blockChars ((p :: ps) ++ post) from rfl,
        List.append_assoc]

/-! ### Decision-level helpers -/

theorem decideSpec_retarget_dest (changes : List (String × Change)) (s ns : Spec)
    (h : decideSpec changes s = .retargeted ns) : ns.destination = s.destination := by
  unfold decideSpec at h
  split at h
  · cases h
  · cases h
  · split at h
    · cases h
    · cases h
      rfl

theorem finalSpec_unchanged (changes : List (String × Change)) (s : Spec)
    (h : decideSpec changes s = .unchanged) : finalSpec changes s = some s := by
  unfold finalSpec
  rw [h]

theorem finalSpec_dropped (changes : List (String × Change)) (s : Spec)
    (h : decideSpec changes s = .dropped) : finalSpec changes s = none := by
  unfold finalSpec
  rw [h]

theorem finalSpec_retargeted (changes : List (String × Change)) (s ns : Spec)
    (h : decideSpec changes s = .retargeted ns) : finalSpec changes s = some ns := by
  unfold finalSpec
  rw [h]

theorem finalSource_retargeted (changes : List (String × Change)) (s ns : Spec)
    (h : decideSpec changes s = .retargeted ns) :
    finalSource changes s = some ns.source := by
  unfold finalSource
  rw [finalSpec_retargeted changes s ns h]
  rfl

theorem ne_of_not_prefix (a b : String) (h : a.data.isPrefixOf b.data = false) :
    ¬ b = a := by
  intro hc
  rw [hc, List.isPrefixOf_iff_prefix.mpr (List.prefix_refl _)] at h
  cases h

theorem noInterfB_acted (changes : List (String × Change)) (s t : Spec)
    (h : noInterfB changes s t = true) (hact : ¬ decideSpec changes s = .unchanged) :
    s.source.data.isPrefixOf t.source.data = false ∧
      ∀ n, finalSource changes t = some n → s.source.data.isPrefixOf n.data = false := by
  unfold noInterfB at h
  cases hcase : decide (decideSpec changes s = Decision.unchanged) with
  | true => exact absurd (of_decide_eq_true hcase) hact
  | false =>
    rw [hcase, Bool.false_or] at h
    constructor
    · cases hb : s.source.data.isPrefixOf t.source.data
      · rfl
      · rw [hb] at h
        simp at h
    · intro n hn
      rw [hn] at h
      simp only [Option.all] at h
      cases hb : s.source.data.isPrefixOf n.data
      · rfl
      · rw [hb] at h
        simp at h

theorem map_retargetIn_id (src new : String) (L : List Spec)
    (h : ∀ e ∈ L, ¬ e.source = src) : L.map (retargetIn src new) = L := by
  induction L with
  | nil => rfl
  | cons e t ih =>
    rw [List.map_cons, retargetIn_neg src new e (h e (List.mem_cons_self _ _)),
      ih (fun x hx => h x (List.mem_cons_of_mem _ hx))]

/-! ### The patcher loop on a canonical block -/

/-- Master loop invariant: starting from `W ++` the canonical rendering of the
already-patched survivors `A` followed by the untouched remainder `R` (with
`W` empty or a single newline), folding the patcher over `R`'s decisions
yields `W' ++` the canonical rendering of `A` followed by `R`'s survivors. -/
theorem patchLoop (changes : List (String × Change)) :
    ∀ (R A : List Spec) (W : List Char),
      W = [] ∨ W = ['\n'] →
      (∀ e ∈ A, cleanStr e.source = true ∧ cleanStr e.destination = true) →
      (∀ s ∈ R, cleanStr s.source = true ∧ cleanStr s.destination = true) →
      (∀ s ∈ R, ∀ ns, decideSpec changes s = .retargeted ns → cleanStr ns.source = true) →
      (∀ s ∈ R, decideSpec changes s = .dropped → s.destination.data.contains '-' = false) →
      (∀ s ∈ R, ¬ decideSpec changes s = .unchanged →
        ∀ e ∈ A, s.source.data.isPrefixOf e.source.data = false) →
      List.Pairwise (fun s t => noInterfB changes s t = true ∧ noInterfB changes t s = true) R →
      ∃ W', (W' = [] ∨ W' = ['\n']) ∧
        List.foldl (fun t s => applyDecision t (s, decideSpec changes s))
          (W ++ blockChars (A ++ R)) R =
        W' ++ blockChars (A ++ R.filterMap (finalSpec changes)) := by
  intro R
  induction R with
  | nil =>
    intro A W hW _ _ _ _ _ _
    exact ⟨W, hW, by simp⟩
  | cons s R' ih =>
    intro A W hW hAc hRc hRn hRd hAp hpw
    have hWws : ∀ c ∈ W, isWs c = true := by
      rcases hW with rfl | rfl
      · intro c hc
        exact absurd hc (List.not_mem_nil c)
      · intro c hc
        rw [List.mem_singleton.mp hc]
        decide
    have hsc := hRc s (List.mem_cons_self _ _)
    have hhead := (List.pairwise_cons.mp hpw).1
    have hpw' := (List.pairwise_cons.mp hpw).2
    have hRc' : ∀ x ∈ R', cleanStr x.source = true ∧ cleanStr x.destination = true :=
      fun x hx => hRc x (List.mem_cons_of_mem _ hx)
    have hRn' : ∀ x ∈ R', ∀ ns, decideSpec changes x = .retargeted ns →
        cleanStr ns.source = true :=
      fun x hx => hRn x (List.mem_cons_of_mem _ hx)
    have hRd' : ∀ x ∈ R', decideSpec changes x = .dropped →
        x.destination.data.contains '-' = false :=
      fun x hx => hRd x (List.mem_cons_of_mem _ hx)
    have hLsAll : ∀ e ∈ A ++ s :: R', cleanStr e.source = true := by
      intro e he
      rcases List.mem_append.mp he with h | h
      · exact (hAc e h).1
      · exact (hRc e h).1
    have hLdAll : ∀ e ∈ A ++ s :: R', cleanStr e.destination = true := by
      intro e he
      rcases List.mem_append.mp he with h | h
      · exact (hAc e h).2
      · exact (hRc e h).2
    simp only [List.foldl_cons]
    cases hd : decideSpec changes s with
    | unchanged =>
      have happ : applyDecision (W ++ blockChars (A ++ s :: R'))
          (s, Decision.unchanged) = W ++ blockChars (A ++ s :: R') := rfl
      rw [happ, show A ++ s :: R' = (A ++ [s]) ++ R' from by simp]
      have hAc' : ∀ e ∈ A ++ [s], cleanStr e.source = true ∧ cleanStr e.destination = true := by
        intro e he
        rcases List.mem_append.mp he with h | h
        · exact hAc e h
        · rw [List.mem_singleton.mp h]
          exact hsc
      have hAp' : ∀ s' ∈ R', ¬ decideSpec changes s' = .unchanged →
          ∀ e ∈ A ++ [s], s'.source.data.isPrefixOf e.source.data = false := by
        intro s' hs' hact e he
        rcases List.mem_append.mp he with h | h
        · exact hAp s' (List.mem_cons_of_mem _ hs') hact e h
        · rw [List.mem_singleton.mp h]
          exact (noInterfB_acted changes s' s (hhead s' hs').2 hact).1
      obtain ⟨W', hW', heq⟩ := ih (A ++ [s]) W hW hAc' hRc' hRn' hRd' hAp' hpw'
      refine ⟨W', hW', ?_⟩
      rw [heq, List.filterMap_cons, finalSpec_unchanged changes s hd]
      simp
    | dropped =>
      have happ : applyDecision (W ++ blockChars (A ++ s :: R'))
          (s, Decision.dropped) =
          removeSpecEntryAux (escapeRegExpL s.source.data)
            (W ++ blockChars (A ++ s :: R')) := rfl
      rw [happ]
      have hnopre : ∀ e ∈ A, s.source.data.isPrefixOf e.source.data = false :=
        hAp s (List.mem_cons_self _ _) (by rw [hd]; intro hc; cases hc)
      have hnopost : ∀ e ∈ R', s.source.data.isPrefixOf e.source.data = false :=
        fun e he => (noInterfB_acted changes s e (hhead e he).1
          (by rw [hd]; intro hc; cases hc)).1
      rw [deleteBlock s.source hsc.1 A s R' W hWws hLsAll hLdAll hnopre hnopost rfl
        (hRd s (List.mem_cons_self _ _) hd)]
      by_cases hA : A = []
      · subst hA
        rw [if_pos rfl]
        have hWT : ∃ W'', (W'' = [] ∨ W'' = ['\n']) ∧
            blockTail R' = W'' ++ blockChars ([] ++ R') := by
          cases R' with
          | nil => exact ⟨[], Or.inl rfl, rfl⟩
          | cons r rs => exact ⟨['\n'], Or.inr rfl, rfl⟩
        obtain ⟨W'', hW'', hWTeq⟩ := hWT
        rw [hWTeq]
        have hAp0 : ∀ s' ∈ R', ¬ decideSpec changes s' = .unchanged →
            ∀ e ∈ ([] : List Spec), s'.source.data.isPrefixOf e.source.data = false := by
          intro s' _ _ e he
          exact absurd he (List.not_mem_nil e)
        obtain ⟨W', hW', heq⟩ := ih [] W'' hW''
          (fun e he => absurd he (List.not_mem_nil e)) hRc' hRn' hRd' hAp0 hpw'
        refine ⟨W', hW', ?_⟩
        rw [heq, List.filterMap_cons, finalSpec_dropped changes s hd]
      · rw [if_neg hA]
        obtain ⟨W', hW', heq⟩ := ih A W hW hAc hRc' hRn' hRd'
          (fun s' hs' hact => hAp s' (List.mem_cons_of_mem _ hs') hact) hpw'
        refine ⟨W', hW', ?_⟩
        rw [heq, List.filterMap_cons, finalSpec_dropped changes s hd]
    | retargeted ns =>
      have hdest : ns.destination = s.destination := decideSpec_retarget_dest changes s ns hd
      have hnsc : cleanStr ns.source = true := hRn s (List.mem_cons_self _ _) ns hd
      have hact : ¬ decideSpec changes s = .unchanged := by
        rw [hd]
        intro hc
        cases hc
      have hnopre : ∀ e ∈ A, s.source.data.isPrefixOf e.source.data = false :=
        hAp s (List.mem_cons_self _ _) hact
      have hnopost : ∀ e ∈ R', s.source.data.isPrefixOf e.source.data = false :=
        fun e he => (noInterfB_acted changes s e (hhead e he).1 hact).1
      have hpre : ∀ e ∈ A ++ s :: R', s.source.data.isPrefixOf e.source.data = true →
          e.source = s.source := by
        intro e he hp
        rcases List.mem_append.mp he with h | h
        · rw [hnopre e h] at hp
          cases hp
        · rcases List.mem_cons.mp h with rfl | h'
          · rfl
          · rw [hnopost e h'] at hp
            cases hp
      have happ : applyDecision (W ++ blockChars (A ++ s :: R'))
          (s, Decision.retargeted ns) =
          replaceLabeledJS ("destination:".data) (escapeRegExpL s.destination.data)
            ns.destination.data
            (replaceLabeledJS ("- source:".data) (escapeRegExpL s.source.data)
              ns.source.data (W ++ blockChars (A ++ s :: R'))) := rfl
      have hdol1 : ∀ c ∈ ns.source.data, ¬ c = '$' := cleanStr_no_dollar ns.source hnsc
      have hdol2 : ∀ c ∈ ns.destination.data, ¬ c = '$' := by
        rw [hdest]
        exact cleanStr_no_dollar s.destination hsc.2
      rw [happ, replaceLabeledJS_eq_plain _ _ _ hdol2, replaceLabeledJS_eq_plain _ _ _ hdol1,
        renameBlock s.source ns.source hsc.1 (A ++ s :: R') W hWws hLsAll hLdAll hpre]
      rw [hdest, replaceLabeled_dest_id s.destination _]
      have hmapA : A.map (retargetIn s.source ns.source) = A :=
        map_retargetIn_id _ _ A (fun e he => ne_of_not_prefix _ _ (hnopre e he))
      have hmapR : R'.map (retargetIn s.source ns.source) = R' :=
        map_retargetIn_id _ _ R' (fun e he => ne_of_not_prefix _ _ (hnopost e he))
      have hmaps : retargetIn s.source ns.source s = ns := by
        rw [retargetIn_pos s.source ns.source s rfl]
        cases ns
        simp only at hdest
        rw [hdest]
      rw [List.map_append, List.map_cons, hmapA, hmapR, hmaps,
        show A ++ ns :: R' = (A ++ [ns]) ++ R' from by simp]
      have hAc' : ∀ e ∈ A ++ [ns], cleanStr e.source = true ∧ cleanStr e.destination = true := by
        intro e he
        rcases List.mem_append.mp he with h | h
        · exact hAc e h
        · rw [List.mem_singleton.mp h]
          exact ⟨hnsc, by rw [hdest]; exact hsc.2⟩
      have hAp' : ∀ s' ∈ R', ¬ decideSpec changes s' = .unchanged →
          ∀ e ∈ A ++ [ns], s'.source.data.isPrefixOf e.source.data = false := by
        intro s' hs' hact' e he
        rcases List.mem_append.mp he with h | h
        · exact hAp s' (List.mem_cons_of_mem _ hs') hact' e h
        · rw [List.mem_singleton.mp h]
          exact (noInterfB_acted changes s' s (hhead s' hs').2 hact').2 ns.source
            (finalSource_retargeted changes s ns hd)
      obtain ⟨W', hW', heq⟩ := ih (A ++ [ns]) W hW hAc' hRc' hRn' hRd' hAp' hpw'
      refine ⟨W', hW', ?_⟩
      rw [heq, List.filterMap_cons, finalSpec_retargeted changes s ns hd]
      simp

/-! ### Projection lemmas for the reconciler -/

theorem updateSpecsToMap_fst (specs : List Spec) (changes : List (String × Change)) :
    (updateSpecsToMap specs changes).1 = specs.map (fun s => (s, decideSpec changes s)) := by
  induction specs with
  | nil => rfl
  | cons s rest ih =>
    simp only [updateSpecsToMap, List.map_cons]
    cases h : lookupChange changes s.source with
    | none =>
      have hd : decideSpec changes s = .unchanged := by simp [decideSpec, h]
      simp [hd, ih]
    | some c =>
      cases c with
      | D p =>
        have hd : decideSpec changes s = .dropped := by simp [decideSpec, h]
        simp [hd, ih]
      | R o n =>
        by_cases hn : n = ""
        · have hd : decideSpec changes s = .dropped := by simp [decideSpec, h, hn]
          simp [hn, hd, ih]
        · have hd : decideSpec changes s =
              .retargeted { source := n, destination := s.destination } := by
            simp [decideSpec, h, hn]
          simp [hn, hd, ih]

theorem updateSpecsToMap_warning_mem (specs : List Spec) (changes : List (String × Change))
    (spec : Spec) (o : String) (hmem : spec ∈ specs)
    (h : lookupChange changes spec.source = some (.R o "")) :
    LogLine.warning ("Missing new path for renamed file: " ++ o) ∈
      (updateSpecsToMap specs changes).2 := by
  induction specs with
  | nil => cases hmem
  | cons s rest ih =>
    rcases List.mem_cons.mp hmem with rfl | hmem'
    · simp only [updateSpecsToMap, h]
      simp
    · have tailMem := ih hmem'
      simp only [updateSpecsToMap]
      cases hs : lookupChange changes s.source with
      | none => simpa using tailMem
      | some c =>
        cases c with
        | D p => simp only; exact List.mem_cons_of_mem _ tailMem
        | R o' n =>
          by_cases hn : n = "" <;> simp only [hn, if_true, if_false, reduceIte] <;>
            exact List.mem_cons_of_mem _ tailMem

theorem decideSpec_nil (spec : Spec) : decideSpec [] spec = .unchanged := rfl

theorem decideSpec_no_change (changes : List (String × Change)) (spec : Spec)
    (h : lookupChange changes spec.source = none) : decideSpec changes spec = .unchanged := by
  simp [decideSpec, h]

/-! ### The patched text and its re-parse -/

theorem survivingSpecs_eq (specs : List Spec) (changes : List (String × Change)) :
    survivingSpecs specs changes = specs.filterMap (finalSpec changes) := by
  unfold survivingSpecs
  rw [updateSpecsToMap_fst, List.filterMap_map]
  rfl

/-- Master characterization: on the canonically rendered config and under the
`benign` hypotheses, the patcher returns exactly the canonical rendering of
the surviving specs, up to one leading newline. -/
theorem replaceSpecsInYaml_canonical (specs : List Spec) (changes : List (String × Change))
    (hb : benign specs changes) :
    ∃ W, (W = [] ∨ W = ['\n']) ∧
      (replaceSpecsInYaml (updateSpecsToMap specs changes).1
        (formatOpenAPIBlock specs)).data =
      W ++ blockChars (survivingSpecs specs changes) := by
  obtain ⟨hc, hn, hdsh, hpw⟩ := hb
  obtain ⟨W, hW, heq⟩ := patchLoop changes specs [] [] (Or.inl rfl)
    (fun e he => absurd he (List.not_mem_nil e)) hc hn hdsh
    (fun s _ _ e he => absurd he (List.not_mem_nil e)) hpw
  refine ⟨W, hW, ?_⟩
  show List.foldl applyDecision (blockChars specs) (updateSpecsToMap specs changes).1 = _
  rw [updateSpecsToMap_fst, List.foldl_map, survivingSpecs_eq]
  simpa using heq

theorem splitLines_cons_nl (cs : List Char) :
    splitLines ('\n' :: cs) = [] :: splitLines cs := by
  simp only [splitLines]
  rw [if_pos trivial]

theorem splitLines_cons_not_nl (c : Char) (cs : List Char) (h : ¬ c = '\n') :
    splitLines (c :: cs) =
      (match splitLines cs with
       | l :: ls => (c :: l) :: ls
       | [] => [[c]]) := by
  simp only [splitLines]
  rw [if_neg h]

theorem splitLines_no_nl (l : List Char) (h : ∀ c ∈ l, ¬ c = '\n') :
    splitLines l = [l] := by
  induction l with
  | nil => rfl
  | cons c cs ih =>
    rw [splitLines_cons_not_nl c cs (h c (List.mem_cons_self _ _)),
      ih (fun x hx => h x (List.mem_cons_of_mem _ hx))]

theorem splitLines_append_nl (l t : List Char) (h : ∀ c ∈ l, ¬ c = '\n') :
    splitLines (l ++ '\n' :: t) = l :: splitLines t := by
  induction l with
  | nil =>
    show splitLines ('\n' :: t) = [] :: splitLines t
    rw [splitLines_cons_nl]
  | cons c cs ih =>
    rw [List.cons_append, splitLines_cons_not_nl c _ (h c (List.mem_cons_self _ _)),
      ih (fun x hx => h x (List.mem_cons_of_mem _ hx))]

theorem clean_no_nl (p : String) (h : cleanStr p = true) : ∀ c ∈ p.data, ¬ c = '\n' := by
  intro c hc hcn
  have hnws := cleanStr_nws p h c hc
  rw [hcn] at hnws
  exact absurd hnws (by decide)

theorem parsePairs_cons_ok (l1 l2 : List Char) (rest : List (List Char)) (specs0 : List Spec)
    (hg : ("  - source: ".data.isPrefixOf l1 &&
      "    destination: ".data.isPrefixOf l2) = true)
    (hrec : parsePairs rest = some specs0) :
    parsePairs (l1 :: l2 :: rest) =
      some (⟨String.mk (l1.drop 12), String.mk (l2.drop 17)⟩ :: specs0) := by
  unfold parsePairs
  rw [if_pos hg, hrec]

/-- Canonically rendered non-empty blocks of clean specs re-parse to the same
specs. -/
theorem parsePairs_roundtrip (specs : List Spec) :
    specs ≠ [] →
    (∀ s ∈ specs, cleanStr s.source = true ∧ cleanStr s.destination = true) →
    parsePairs (splitLines (blockChars specs)) = some specs := by
  induction specs with
  | nil => intro h; cases h rfl
  | cons s rest ih =>
    intro _ hcl
    have hs := hcl s (List.mem_cons_self _ _)
    have hlit1 : ∀ c ∈ ("  - source: ".data : List Char), ¬ c = '\n' := by decide
    have hlit2 : ∀ c ∈ ("    destination: ".data : List Char), ¬ c = '\n' := by decide
    have hl1 : ∀ c ∈ ("  - source: ".data ++ s.source.data), ¬ c = '\n' := by
      intro c hc
      rcases List.mem_append.mp hc with h | h
      · exact hlit1 c h
      · exact clean_no_nl s.source hs.1 c h
    have hl2 : ∀ c ∈ ("    destination: ".data ++ s.destination.data), ¬ c = '\n' := by
      intro c hc
      rcases List.mem_append.mp hc with h | h
      · exact hlit2 c h
      · exact clean_no_nl s.destination hs.2 c h
    have hguard : ("  - source: ".data.isPrefixOf ("  - source: ".data ++ s.source.data) &&
        "    destination: ".data.isPrefixOf
          ("    destination: ".data ++ s.destination.data)) = true := by
      rw [List.isPrefixOf_iff_prefix.mpr (List.prefix_append _ _),
        List.isPrefixOf_iff_prefix.mpr (List.prefix_append _ _)]
      rfl
    have hshape : blockChars (s :: rest) =
        ("  - source: ".data ++ s.source.data) ++ '\n' ::
          ("    destination: ".data ++ (s.destination.data ++ blockTail rest)) := by
      rw [blockChars_cons, specEntryChars_eq,
        show ("\n    destination: ".data : List Char) =
          '\n' :: "    destination: ".data from rfl]
      simp [List.append_assoc]
    cases rest with
    | nil =>
      rw [hshape, splitLines_append_nl _ _ hl1]
      rw [show blockTail ([] : List Spec) = [] from rfl, List.append_nil]
      rw [splitLines_no_nl _ hl2]
      rw [parsePairs_cons_ok _ _ [] [] hguard rfl]
      rfl
    | cons r rs =>
      rw [hshape, splitLines_append_nl _ _ hl1]
      rw [show blockTail (r :: rs) = '\n' :: blockChars (r :: rs) from rfl]
      rw [show ("    destination: ".data ++
            (s.destination.data ++ '\n' :: blockChars (r :: rs))) =
          ("    destination: ".data ++ s.destination.data) ++
            '\n' :: blockChars (r :: rs) from by simp [List.append_assoc]]
      rw [splitLines_append_nl _ _ hl2]
      rw [parsePairs_cons_ok _ _ _ (r :: rs) hguard
        (ih (by simp) (fun x hx => hcl x (List.mem_cons_of_mem _ hx)))]
      rfl

/-- The patcher's output re-parses to the surviving specs: wrapper over the
canonical-shape classification of the patched text. -/
theorem parseFormattedBlock_roundtrip (W : List Char) (hW : W = [] ∨ W = ['\n'])
    (specs : List Spec)
    (hcl : ∀ s ∈ specs, cleanStr s.source = true ∧ cleanStr s.destination = true) :
    parseFormattedBlock (String.mk (W ++ blockChars specs)) = some specs := by
  cases specs with
  | nil =>
    rcases hW with rfl | rfl
    · rfl
    · rfl
  | cons s rest =>
    have hmain := parsePairs_roundtrip (s :: rest) (by simp) hcl
    obtain ⟨t, ht⟩ : ∃ t, blockChars (s :: rest) = ' ' :: t := by
      rw [blockChars_cons, specEntryChars_eq]
      exact ⟨_, rfl⟩
    rw [ht] at hmain
    rcases hW with rfl | rfl
    · rw [ht]
      exact hmain
    · rw [ht]
      exact hmain

theorem containsSeg_cons_of (pat : List Char) (c : Char) (cs : List Char)
    (h : containsSeg pat cs = true) : containsSeg pat (c :: cs) = true := by
  unfold containsSeg
  rw [h, Bool.or_true]

theorem containsSeg_of_prefix (pat s : List Char) (h : pat.isPrefixOf s = true) :
    containsSeg pat s = true := by
  cases s with
  | nil =>
    cases pat with
    | nil => rfl
    | cons p ps => cases h
  | cons c cs =>
    unfold containsSeg
    rw [h, Bool.true_or]

theorem containsSeg_append_left (pat l t : List Char) (h : containsSeg pat t = true) :
    containsSeg pat (l ++ t) = true := by
  induction l with
  | nil => exact h
  | cons c cs ih => exact containsSeg_cons_of pat c _ ih

theorem containsSeg_to_suffix (pat : List Char) :
    ∀ s, containsSeg pat s = true → ∃ u, u <:+ s ∧ pat.isPrefixOf u = true := by
  intro s
  induction s with
  | nil =>
    intro h
    cases pat with
    | nil => exact ⟨[], List.suffix_refl _, rfl⟩
    | cons p ps => cases h
  | cons c cs ih =>
    intro h
    unfold containsSeg at h
    cases hp : pat.isPrefixOf (c :: cs) with
    | true => exact ⟨c :: cs, List.suffix_refl _, hp⟩
    | false =>
      rw [hp, Bool.false_or] at h
      obtain ⟨u, hsu, hpu⟩ := ih h
      exact ⟨u, hsu.trans (List.suffix_cons c cs), hpu⟩

theorem containsSeg_entry_of_mem (s : Spec) :
    ∀ (L : List Spec), s ∈ L → containsSeg (specEntryChars s) (blockChars L) = true := by
  intro L
  induction L with
  | nil =>
    intro h
    exact absurd h (List.not_mem_nil s)
  | cons e rest ih =>
    intro hmem
    rw [blockChars_cons]
    rcases List.mem_cons.mp hmem with rfl | h'
    · exact containsSeg_of_prefix _ _
        (List.isPrefixOf_iff_prefix.mpr (List.prefix_append _ _))
    · cases rest with
      | nil => exact absurd h' (List.not_mem_nil s)
      | cons r rs =>
        apply containsSeg_append_left
        show containsSeg _ ('\n' :: blockChars (r :: rs)) = true
        exact containsSeg_cons_of _ _ _ (ih h')

/-- Nowhere in a canonical block whose sources all avoid the acted-on path as
a prefix can the source pattern match. -/
theorem blockSuffix_none (src : String) (hsrc : cleanStr src = true) :
    ∀ (L : List Spec),
      (∀ e ∈ L, cleanStr e.source = true) →
      (∀ e ∈ L, cleanStr e.destination = true) →
      (∀ e ∈ L, src.data.isPrefixOf e.source.data = false) →
      ∀ t, t ≠ [] → t <:+ blockChars L →
        matchLabeledAt ("- source:".data) (escapeRegExpL src.data) t = none := by
  intro L
  induction L with
  | nil =>
    intro _ _ _ t htne hts
    rw [show blockChars [] = [] from rfl] at hts
    rw [List.suffix_nil.mp hts] at htne
    cases htne rfl
  | cons e rest ih =>
    intro hLs hLd hno t htne hts
    rw [blockChars_cons] at hts
    rcases suffix_split hts with hbt | ⟨x', hx', hx'ne, rfl⟩
    · cases rest with
      | nil =>
        rw [show blockTail ([] : List Spec) = [] from rfl] at hbt
        rw [List.suffix_nil.mp hbt] at htne
        cases htne rfl
      | cons r rs =>
        have hLs' : ∀ x ∈ (r :: rs), cleanStr x.source = true :=
          fun x hx => hLs x (List.mem_cons_of_mem _ hx)
        have hLd' : ∀ x ∈ (r :: rs), cleanStr x.destination = true :=
          fun x hx => hLd x (List.mem_cons_of_mem _ hx)
        have hno' : ∀ x ∈ (r :: rs), src.data.isPrefixOf x.source.data = false :=
          fun x hx => hno x (List.mem_cons_of_mem _ hx)
        have hbne : blockChars (r :: rs) ≠ [] := by
          rw [blockChars_cons]
          simp [specEntryChars_ne_nil]
        rw [show blockTail (r :: rs) = '\n' :: blockChars (r :: rs) from rfl] at hbt
        rcases List.suffix_cons_iff.mp hbt with rfl | hbt'
        · show matchLabeledAt _ _ (['\n'] ++ blockChars (r :: rs)) = none
          rw [matchSrc_ws_shift src hsrc ['\n'] (by decide)]
          rw [ih hLs' hLd' hno' (blockChars (r :: rs)) hbne (List.suffix_refl _)]
          rfl
        · exact ih hLs' hLd' hno' t htne hbt'
    · exact entry_suffix_none src hsrc e (hLs e (List.mem_cons_self _ _))
        (hLd e (List.mem_cons_self _ _)) (hno e (List.mem_cons_self _ _))
        _ (blockTail_shape rest) x' hx'ne hx'

/-- The source pattern does match wherever the text actually carries
`- source: ` followed by the path: occurrences are not invisible to the
patcher. -/
theorem matchSrc_at_srcpos (src : String) (hsrc : cleanStr src = true) (r : List Char) :
    matchLabeledAt ("- source:".data) (escapeRegExpL src.data)
      ("- source: ".data ++ (src.data ++ r)) = some (10, 10 + src.data.length) := by
  obtain ⟨c0, cs0, hc0⟩ := List.exists_cons_of_ne_nil (cleanStr_ne_nil src hsrc)
  have hc0nws : isWs c0 = false :=
    cleanStr_nws src hsrc c0 (by rw [hc0]; exact List.mem_cons_self _ _)
  rw [matchLabeledAt_src_eq src hsrc]
  have hws0 : wsRunLen ("- source: ".data ++ (src.data ++ r)) = 0 := by
    show wsRunLen ('-' :: (" source: ".data ++ (src.data ++ r))) = 0
    exact wsRunLen_cons_not _ _ (by decide)
  rw [hws0, List.drop_zero]
  have hpre1 : ("- source:".data).isPrefixOf
      ("- source: ".data ++ (src.data ++ r)) = true := by
    apply List.isPrefixOf_iff_prefix.mpr
    show ("- source:".data : List Char) <+: "- source:".data ++ (' ' :: (src.data ++ r))
    exact List.prefix_append _ _
  rw [if_pos hpre1]
  have hdrop9 : ("- source: ".data ++ (src.data ++ r)).drop (0 + 9) =
      ' ' :: (src.data ++ r) := rfl
  rw [hdrop9]
  have hws1 : wsRunLen (' ' :: (src.data ++ r)) = 1 := by
    rw [wsRunLen_cons_ws _ _ (by decide), hc0]
    rw [show (c0 :: cs0) ++ r = c0 :: (cs0 ++ r) from rfl, wsRunLen_cons_not _ _ hc0nws]
  rw [hws1]
  have hdrop1 : (' ' :: (src.data ++ r)).drop 1 = src.data ++ r := rfl
  rw [hdrop1]
  have hpre2 : src.data.isPrefixOf (src.data ++ r) = true :=
    List.isPrefixOf_iff_prefix.mpr (List.prefix_append _ _)
  rw [if_pos hpre2]

theorem surviving_clean (specs : List Spec) (changes : List (String × Change))
    (hb : benign specs changes) :
    ∀ e ∈ survivingSpecs specs changes,
      cleanStr e.source = true ∧ cleanStr e.destination = true := by
  obtain ⟨hc, hn, _, _⟩ := hb
  intro e he
  rw [survivingSpecs_eq] at he
  obtain ⟨t, ht, hft⟩ := List.mem_filterMap.mp he
  unfold finalSpec at hft
  cases hd : decideSpec changes t with
  | unchanged =>
    rw [hd] at hft
    cases hft
    exact hc e ht
  | dropped =>
    rw [hd] at hft
    cases hft
  | retargeted ns =>
    rw [hd] at hft
    cases hft
    refine ⟨hn t ht e hd, ?_⟩
    rw [decideSpec_retarget_dest changes t e hd]
    exact (hc t ht).2

theorem surviving_no_prefix_of_dropped (specs : List Spec)
    (changes : List (String × Change)) (hb : benign specs changes)
    (s : Spec) (hs : s ∈ specs) (hd : decideSpec changes s = .dropped) :
    ∀ e ∈ survivingSpecs specs changes,
      s.source.data.isPrefixOf e.source.data = false := by
  obtain ⟨_, _, _, hpw⟩ := hb
  intro e he
  rw [survivingSpecs_eq] at he
  obtain ⟨t, ht, hft⟩ := List.mem_filterMap.mp he
  by_cases hts : t = s
  · rw [hts, finalSpec_dropped changes s hd] at hft
    cases hft
  · have hsym : Symmetric
        (fun (a b : Spec) => noInterfB changes a b = true ∧ noInterfB changes b a = true) :=
      fun a b h => ⟨h.2, h.1⟩
    have hni : noInterfB changes s t = true :=
      (List.Pairwise.forall hsym hpw hs ht (fun h => hts h.symm)).1
    have hact : ¬ decideSpec changes s = .unchanged := by
      rw [hd]
      intro hcon
      cases hcon
    have hfsrc : finalSource changes t = some e.source := by
      unfold finalSource
      rw [hft]
      rfl
    exact (noInterfB_acted changes s t hni hact).2 e.source hfsrc

theorem mem_surviving_of_final (specs : List Spec) (changes : List (String × Change))
    (s : Spec) (hs : s ∈ specs) (e : Spec)
    (hf : finalSpec changes s = some e) : e ∈ survivingSpecs specs changes := by
  rw [survivingSpecs_eq]
  exact List.mem_filterMap.mpr ⟨s, hs, hf⟩

/-- Under `benign`, the patched output re-parses to exactly the surviving
specs. -/
theorem patched_parse (specs : List Spec) (changes : List (String × Change))
    (hb : benign specs changes) :
    parseFormattedBlock
        (replaceSpecsInYaml (updateSpecsToMap specs changes).1
          (formatOpenAPIBlock specs)) =
      some (survivingSpecs specs changes) := by
  obtain ⟨W, hW, heq⟩ := replaceSpecsInYaml_canonical specs changes hb
  have h2 := parseFormattedBlock_roundtrip W hW _ (surviving_clean specs changes hb)
  rw [← heq] at h2
  exact h2

/-! ### C4 — renamed change with an empty/missing new path -/

/-- C4: a `Renamed` change whose new path is empty/missing yields exactly the
decision a `Deleted` change of the same source would (the entry is dropped),
a warning is logged rather than an error raised, and the reconciler still
produces a decision for every spec (the pipeline continues). -/
theorem claim_C4_rename_missing_new_path (specs : List Spec)
    (changes : List (String × Change)) (spec : Spec) (o : String)
    (hmem : spec ∈ specs)
    (h : lookupChange changes spec.source = some (.R o "")) :
    decideSpec changes spec = .dropped ∧
    decideSpec changes spec = decideSpec [(spec.source, .D spec.source)] spec ∧
    LogLine.warning ("Missing new path for renamed file: " ++ o) ∈
      (updateSpecsToMap specs changes).2 ∧
    ((updateSpecsToMap specs changes).1.map Prod.fst = specs) := by
  refine ⟨?_, ?_, updateSpecsToMap_warning_mem specs changes spec o hmem h, ?_⟩
  · simp [decideSpec, h]
  · simp [decideSpec, h, lookupChange]
  · rw [updateSpecsToMap_fst]
    simp [Function.comp_def]

theorem claim_C4_witness :
    (⟨"a/x.yaml", "out/x.json"⟩ : Spec) ∈ [(⟨"a/x.yaml", "out/x.json"⟩ : Spec)] ∧
    lookupChange [("a/x.yaml", Change.R "a/x.yaml" "")] "a/x.yaml" =
      some (.R "a/x.yaml" "") ∧
    decideSpec [("a/x.yaml", Change.R "a/x.yaml" "")] ⟨"a/x.yaml", "out/x.json"⟩ =
      .dropped := by
  refine ⟨by decide, by decide, ?_⟩
  exact (claim_C4_rename_missing_new_path
    [⟨"a/x.yaml", "out/x.json"⟩] [("a/x.yaml", Change.R "a/x.yaml" "")]
    ⟨"a/x.yaml", "out/x.json"⟩ "a/x.yaml" (by decide) (by decide)).1

/-! ### C6 — only removed/renamed statuses contribute -/

theorem getDiffFiles_irrelevant (files : List FileEntry)
    (h : ∀ f ∈ files, f.status ≠ "removed" ∧ f.status ≠ "renamed") :
    getDiffFiles files = [] := by
  have aux : ∀ (fs : List FileEntry) (acc : List (String × Change)),
      (∀ f ∈ fs, f.status ≠ "removed" ∧ f.status ≠ "renamed") →
      fs.foldl
        (fun diff file =>
          if file.status = "removed" then
            recordSet diff file.filename (.D file.filename)
          else if file.status = "renamed" then
            let prev := file.previous_filename.getD "undefined"
            recordSet diff prev (.R prev file.filename)
          else diff)
        acc = acc := by
    intro fs
    induction fs with
    | nil => intro acc _; rfl
    | cons f rest ih =>
      intro acc hall
      have hf := hall f (List.mem_cons_self _ _)
      have hrest : ∀ g ∈ rest, g.status ≠ "removed" ∧ g.status ≠ "renamed" :=
        fun g hg => hall g (List.mem_cons_of_mem _ hg)
      simp only [List.foldl_cons, if_neg hf.1, if_neg hf.2]
      exact ih acc hrest
  exact aux files [] h

/-- In any diff response, however mixed, the files whose status is neither
`removed` nor `renamed` contribute nothing: the change record built from the
full response equals the one built from just its removed/renamed files. -/
theorem getDiffFiles_filter (files : List FileEntry) :
    getDiffFiles files =
      getDiffFiles (files.filter (fun f => f.status = "removed" || f.status = "renamed")) := by
  have aux : ∀ (fs : List FileEntry) (acc : List (String × Change)),
      fs.foldl
        (fun diff file =>
          if file.status = "removed" then
            recordSet diff file.filename (.D file.filename)
          else if file.status = "renamed" then
            let prev := file.previous_filename.getD "undefined"
            recordSet diff prev (.R prev file.filename)
          else diff)
        acc =
      (fs.filter (fun f => f.status = "removed" || f.status = "renamed")).foldl
        (fun diff file =>
          if file.status = "removed" then
            recordSet diff file.filename (.D file.filename)
          else if file.status = "renamed" then
            let prev := file.previous_filename.getD "undefined"
            recordSet diff prev (.R prev file.filename)
          else diff)
        acc := by
    intro fs
    induction fs with
    | nil => intro acc; rfl
    | cons f rest ih =>
      intro acc
      by_cases h1 : f.status = "removed"
      · rw [List.filter_cons_of_pos (by simp [h1])]
        simp only [List.foldl_cons]
        exact ih _
      · by_cases h2 : f.status = "renamed"
        · rw [List.filter_cons_of_pos (by simp [h2])]
          simp only [List.foldl_cons]
          exact ih _
        · rw [List.filter_cons_of_neg (by simp [h1, h2])]
          simp only [List.foldl_cons, if_neg h1, if_neg h2]
          exact ih _
  exact aux files []

/-- C6: in every diff response, only files with status `removed` or `renamed`
contribute entries to the change record — dropping all other files changes
nothing — and a diff containing no removed/renamed file at all produces an
empty record, on which the reconciler makes every decision `Unchanged`. -/
theorem claim_C6_only_removed_renamed_contribute (files : List FileEntry) (specs : List Spec) :
    getDiffFiles files =
      getDiffFiles (files.filter (fun f => f.status = "removed" || f.status = "renamed")) ∧
    ((∀ f ∈ files, f.status ≠ "removed" ∧ f.status ≠ "renamed") →
      getDiffFiles files = [] ∧
      ∀ p ∈ (updateSpecsToMap specs (getDiffFiles files)).1, p.2 = Decision.unchanged) := by
  refine ⟨getDiffFiles_filter files, fun h => ?_⟩
  have hd := getDiffFiles_irrelevant files h
  refine ⟨hd, ?_⟩
  intro p hp
  rw [hd, updateSpecsToMap_fst] at hp
  rcases List.mem_map.mp hp with ⟨s, _, rfl⟩
  rfl

theorem claim_C6_witness :
    getDiffFiles [(⟨"a.txt", "added", none⟩ : FileEntry), ⟨"x.yaml", "removed", none⟩,
        ⟨"b.txt", "modified", none⟩] =
      getDiffFiles (List.filter (fun f => f.status = "removed" || f.status = "renamed")
        [(⟨"a.txt", "added", none⟩ : FileEntry), ⟨"x.yaml", "removed", none⟩,
         ⟨"b.txt", "modified", none⟩]) ∧
    ((∀ f ∈ [(⟨"a.txt", "added", none⟩ : FileEntry), ⟨"x.yaml", "removed", none⟩,
        ⟨"b.txt", "modified", none⟩], f.status ≠ "removed" ∧ f.status ≠ "renamed") →
      getDiffFiles [(⟨"a.txt", "added", none⟩ : FileEntry), ⟨"x.yaml", "removed", none⟩,
        ⟨"b.txt", "modified", none⟩] = [] ∧
      ∀ p ∈ (updateSpecsToMap [(⟨"a/x.yaml", "out/x.json"⟩ : Spec)]
          (getDiffFiles [(⟨"a.txt", "added", none⟩ : FileEntry), ⟨"x.yaml", "removed", none⟩,
            ⟨"b.txt", "modified", none⟩])).1, p.2 = Decision.unchanged) :=
  claim_C6_only_removed_renamed_contribute
    [⟨"a.txt", "added", none⟩, ⟨"x.yaml", "removed", none⟩, ⟨"b.txt", "modified", none⟩]
    [⟨"a/x.yaml", "out/x.json"⟩]

/-! ### C7 — empty change record: byte-identical output, no write, no commit -/

/-- C7: with an empty change record the run exits early and successfully:
the config text is left byte-identical, no file write happens, no commit is
attempted, and the informational skip message is logged. -/
theorem claim_C7_empty_changes_noop (configRaw : String) (specs : List Spec)
    (ctx : GitHubCtx) :
    (runCore configRaw specs [] ctx).finalText = configRaw ∧
    (runCore configRaw specs [] ctx).wrote = false ∧
    (runCore configRaw specs [] ctx).commit = none ∧
    (runCore configRaw specs [] ctx).ok = true := by
  by_cases h : specs.length = 0 <;> simp [runCore, h]

/-! ### C10 — fork guard of the auto-commit step -/

/-- C10: with no `pull_request` in the event payload the guard's optional
chain yields `undefined`, `isFork` is true, and `autoCommitAndPushIfChanged`
returns immediately without reading or writing; conversely a commit is only
ever attempted when the payload carries a pull request whose head repo is the
repository itself. -/
theorem claim_C10_fork_guard (ctx : GitHubCtx) :
    (ctx.pullRequest = none → autoCommitAndPushIfChanged ctx = .skippedFork) ∧
    (∀ b, autoCommitAndPushIfChanged ctx = .proceeded b →
      ∃ pr, ctx.pullRequest = some pr ∧
        pr.headRepoFullName = ctx.owner ++ "/" ++ ctx.repo ∧ b = some pr.headRef) := by
  constructor
  · intro h
    simp [autoCommitAndPushIfChanged, h]
  · intro b hb
    cases hpr : ctx.pullRequest with
    | none => simp [autoCommitAndPushIfChanged, hpr] at hb
    | some pr =>
      by_cases heq : pr.headRepoFullName = ctx.owner ++ "/" ++ ctx.repo
      · refine ⟨pr, rfl, heq, ?_⟩
        simp [autoCommitAndPushIfChanged, hpr, heq] at hb
        exact hb.symm
      · simp [autoCommitAndPushIfChanged, hpr, heq] at hb

theorem claim_C10_witness :
    autoCommitAndPushIfChanged ⟨none, "octo", "repo", some "main"⟩ = .skippedFork :=
  (claim_C10_fork_guard ⟨none, "octo", "repo", some "main"⟩).1 rfl

/-! ### C9 — refinement between `updateSpecs` and `updateSpecsToMap` -/

theorem updateSpecs_refines (specs : List Spec) (changes : List (String × Change)) :
    (updateSpecs specs changes).1 =
      (updateSpecsToMap specs changes).1.filterMap
        (fun p =>
          match p.2 with
          | .unchanged => some p.1
          | .dropped => none
          | .retargeted ns =>
              some { source := ns.source,
                     destination :=
                       replaceFirst p.1.destination (basename p.1.source) (basename ns.source) }) := by
  induction specs with
  | nil => rfl
  | cons s rest ih =>
    simp only [updateSpecs, updateSpecsToMap]
    cases h : lookupChange changes s.source with
    | none => simp [ih]
    | some c =>
      cases c with
      | D p => simp [ih]
      | R o n =>
        by_cases hn : n = "" <;> simp [hn, ih]

theorem updateSpecsToMap_retarget_dest (specs : List Spec) (changes : List (String × Change)) :
    ∀ p ∈ (updateSpecsToMap specs changes).1, ∀ ns, p.2 = .retargeted ns →
      ns.destination = p.1.destination := by
  intro p hp ns hns
  rw [updateSpecsToMap_fst] at hp
  rcases List.mem_map.mp hp with ⟨s, _, rfl⟩
  simp only at hns
  unfold decideSpec at hns
  split at hns
  · cases hns
  · cases hns
  · split at hns
    · cases hns
    · cases hns
      rfl

theorem updateSpecs_sources (specs : List Spec) (changes : List (String × Change)) :
    ((updateSpecs specs changes).1).map Spec.source =
      (survivingSpecs specs changes).map Spec.source := by
  unfold survivingSpecs
  rw [updateSpecs_refines]
  induction (updateSpecsToMap specs changes).1 with
  | nil => rfl
  | cons p rest ih =>
    cases hd : p.2 with
    | unchanged => simpa [List.filterMap_cons, hd] using ih
    | dropped => simpa [List.filterMap_cons, hd] using ih
    | retargeted ns => simpa [List.filterMap_cons, hd] using ih

/-- C9: the historical reconciler `updateSpecs` and the active
`updateSpecsToMap` keep exactly the same specs, in the same order, with the
same sources; the only possible difference is a retargeted survivor's
destination, where `updateSpecs` substitutes the old source's basename and
`updateSpecsToMap` keeps the destination verbatim. -/
theorem claim_C9_updateSpecs_vs_map (specs : List Spec) (changes : List (String × Change)) :
    ((updateSpecs specs changes).1 =
      (updateSpecsToMap specs changes).1.filterMap
        (fun p =>
          match p.2 with
          | .unchanged => some p.1
          | .dropped => none
          | .retargeted ns =>
              some { source := ns.source,
                     destination :=
                       replaceFirst p.1.destination (basename p.1.source) (basename ns.source) })) ∧
    ((updateSpecs specs changes).1).map Spec.source =
      (survivingSpecs specs changes).map Spec.source ∧
    (∀ p ∈ (updateSpecsToMap specs changes).1, ∀ ns, p.2 = .retargeted ns →
      ns.destination = p.1.destination) :=
  ⟨updateSpecs_refines specs changes, updateSpecs_sources specs changes,
   updateSpecsToMap_retarget_dest specs changes⟩

/-! ### C5 — metacharacters in paths: literal on the pattern side only -/

/-- C5 (amended): the path fragment embedded into every patcher pattern is
`escapeRegExp` of the path and matches exactly the literal path (and nothing
else), whatever regex metacharacters the path contains — the matching side
holds unconditionally.  On the replacement side the code interpolates the
new path unsanitized into the template processed by JavaScript
`GetSubstitution`, so the new path is inserted verbatim only when it
contains no `$`: then the faithful scanner coincides with plain
capture-plus-path insertion, and patching a config whose paths contain `.`,
`(`, `)` renames the right entry literally while leaving a lookalike entry
(which an unescaped `.` would also have matched) untouched.  A new path
containing `$&` is expanded rather than inserted: see the counterexample. -/
theorem claim_C5_escaping_is_literal :
    (∀ (p : String) (s : List Char),
        litPatMatch (escapeRegExp p).data s =
          if p.data.isPrefixOf s then some p.data.length else none) ∧
    (∀ (label escPath rep s : List Char), (∀ c ∈ rep, ¬ c = '$') →
        replaceLabeledJS label escPath rep s = replaceLabeledAux label escPath rep s) ∧
    replaceSpecsInYaml
        (updateSpecsToMap [⟨"a/x.y(1).yaml", "out/x.json"⟩, ⟨"a/xqy(1)qyaml", "out/q.json"⟩]
          [("a/x.y(1).yaml", .R "a/x.y(1).yaml" "n.yaml")]).1
        (formatOpenAPIBlock [⟨"a/x.y(1).yaml", "out/x.json"⟩, ⟨"a/xqy(1)qyaml", "out/q.json"⟩]) =
      "  - source: n.yaml\n    destination: out/x.json\n  - source: a/xqy(1)qyaml\n    destination: out/q.json" :=
  ⟨fun p s => litPatMatch_escape p.data s,
   fun label escPath rep s h => replaceLabeledJS_eq_plain label escPath rep h s,
   by decide⟩

/-! ### Counterexamples to the universally quantified text-level claims -/

/-- C1 fails as stated: with specs `[{q/a.yaml → o/a.json}, {p/a.yaml → o/b.json}]`
and changes `{q/a.yaml ↦ Renamed(·, p/a.yaml2), p/a.yaml ↦ Deleted}`, the
first spec gets a `Retargeted` decision with the non-empty new path
`p/a.yaml2`, yet the patched output text contains no `source:` value equal to
that new path at all: the later deletion's anchor `p/a.yaml` is a prefix of
the new path, so its global pattern also devours the freshly retargeted
entry (the whole output is the empty string). -/
theorem claim_C1_counterexample :
    decideSpec
        [("q/a.yaml", .R "q/a.yaml" "p/a.yaml2"), ("p/a.yaml", .D "p/a.yaml")]
        ⟨"q/a.yaml", "o/a.json"⟩ =
      .retargeted ⟨"p/a.yaml2", "o/a.json"⟩ ∧
    replaceSpecsInYaml
        (updateSpecsToMap [⟨"q/a.yaml", "o/a.json"⟩, ⟨"p/a.yaml", "o/b.json"⟩]
          [("q/a.yaml", .R "q/a.yaml" "p/a.yaml2"), ("p/a.yaml", .D "p/a.yaml")]).1
        (formatOpenAPIBlock [⟨"q/a.yaml", "o/a.json"⟩, ⟨"p/a.yaml", "o/b.json"⟩]) = "" ∧
    containsSeg "p/a.yaml2".data
        (replaceSpecsInYaml
          (updateSpecsToMap [⟨"q/a.yaml", "o/a.json"⟩, ⟨"p/a.yaml", "o/b.json"⟩]
            [("q/a.yaml", .R "q/a.yaml" "p/a.yaml2"), ("p/a.yaml", .D "p/a.yaml")]).1
          (formatOpenAPIBlock [⟨"q/a.yaml", "o/a.json"⟩, ⟨"p/a.yaml", "o/b.json"⟩])).data =
      false := by
  decide

/-- C2 fails as stated: deleting `a/x.yaml`, whose destination `out/x-1.json`
contains a `-`, the deletion pattern's lazy tail `[^-]*?(?=\s*-|$)` stops at
the hyphen inside the destination, so the fragment `-1.json` of the deleted
entry's destination line survives in the output and the output no longer
re-parses as a spec list. -/
theorem claim_C2_counterexample :
    decideSpec [("a/x.yaml", .D "a/x.yaml")] ⟨"a/x.yaml", "out/x-1.json"⟩ = .dropped ∧
    containsSeg "-1.json".data
        (replaceSpecsInYaml
          (updateSpecsToMap [⟨"a/x.yaml", "out/x-1.json"⟩, ⟨"b/y.yaml", "out/y.json"⟩]
            [("a/x.yaml", .D "a/x.yaml")]).1
          (formatOpenAPIBlock
            [⟨"a/x.yaml", "out/x-1.json"⟩, ⟨"b/y.yaml", "out/y.json"⟩])).data = true ∧
    parseFormattedBlock
        (replaceSpecsInYaml
          (updateSpecsToMap [⟨"a/x.yaml", "out/x-1.json"⟩, ⟨"b/y.yaml", "out/y.json"⟩]
            [("a/x.yaml", .D "a/x.yaml")]).1
          (formatOpenAPIBlock
            [⟨"a/x.yaml", "out/x-1.json"⟩, ⟨"b/y.yaml", "out/y.json"⟩])) = none := by
  decide

/-- C3 fails as stated: renaming `a/x.yaml` to `n.yaml` while the distinct
spec `a/x.yaml.bak` has no change entry, the second spec's decision is indeed
`Unchanged`, but the rename's global pattern also matches inside the second
entry (`a/x.yaml` is a prefix of `a/x.yaml.bak`), rewriting its source line
to `n.yaml.bak`: the byte range covering the unchanged entry is not left
identical to the input. -/
theorem claim_C3_counterexample :
    decideSpec [("a/x.yaml", .R "a/x.yaml" "n.yaml")] ⟨"a/x.yaml.bak", "o/2.json"⟩ =
      .unchanged ∧
    containsSeg "a/x.yaml.bak".data
        (replaceSpecsInYaml
          (updateSpecsToMap [⟨"a/x.yaml", "o/1.json"⟩, ⟨"a/x.yaml.bak", "o/2.json"⟩]
            [("a/x.yaml", .R "a/x.yaml" "n.yaml")]).1
          (formatOpenAPIBlock
            [⟨"a/x.yaml", "o/1.json"⟩, ⟨"a/x.yaml.bak", "o/2.json"⟩])).data = false ∧
    containsSeg "n.yaml.bak".data
        (replaceSpecsInYaml
          (updateSpecsToMap [⟨"a/x.yaml", "o/1.json"⟩, ⟨"a/x.yaml.bak", "o/2.json"⟩]
            [("a/x.yaml", .R "a/x.yaml" "n.yaml")]).1
          (formatOpenAPIBlock
            [⟨"a/x.yaml", "o/1.json"⟩, ⟨"a/x.yaml.bak", "o/2.json"⟩])).data = true := by
  decide

/-- C5 fails as stated: the patcher escapes the old path on the pattern side
only; the new path is interpolated unsanitized into the replacement
template, where JavaScript expands `$`-sequences.  Renaming `a/x.yaml` to
`c$&z` does not put `c$&z` into the output: the `$&` expands to the whole
matched source line, duplicating it inside the entry — so a `$` in a new
path does alter the replacement semantics. -/
theorem claim_C5_counterexample :
    decideSpec [("a/x.yaml", .R "a/x.yaml" "c$&z")] ⟨"a/x.yaml", "out/x.json"⟩ =
      .retargeted ⟨"c$&z", "out/x.json"⟩ ∧
    replaceSpecsInYaml
        (updateSpecsToMap [⟨"a/x.yaml", "out/x.json"⟩]
          [("a/x.yaml", .R "a/x.yaml" "c$&z")]).1
        (formatOpenAPIBlock [⟨"a/x.yaml", "out/x.json"⟩]) =
      "  - source: c  - source: a/x.yamlz\n    destination: out/x.json" ∧
    containsSeg "c$&z".data
        (replaceSpecsInYaml
          (updateSpecsToMap [⟨"a/x.yaml", "out/x.json"⟩]
            [("a/x.yaml", .R "a/x.yaml" "c$&z")]).1
          (formatOpenAPIBlock [⟨"a/x.yaml", "out/x.json"⟩])).data = false := by
  decide

/-- C8 fails as stated: deleting `p/a.yaml` while the distinct, unchanged
spec `p/a.yaml.v2` is tracked, the reconciler does produce one decision per
spec in order, but the deletion's global pattern also matches the surviving
entry (the anchor is a prefix of its source), wiping the whole block: the
surviving spec does not appear in the output at all, so the survivors'
relative order in the text is not that of the input. -/
theorem claim_C8_counterexample :
    survivingSpecs [⟨"p/a.yaml", "d1.json"⟩, ⟨"p/a.yaml.v2", "d2.json"⟩]
        [("p/a.yaml", .D "p/a.yaml")] = [⟨"p/a.yaml.v2", "d2.json"⟩] ∧
    replaceSpecsInYaml
        (updateSpecsToMap [⟨"p/a.yaml", "d1.json"⟩, ⟨"p/a.yaml.v2", "d2.json"⟩]
          [("p/a.yaml", .D "p/a.yaml")]).1
        (formatOpenAPIBlock [⟨"p/a.yaml", "d1.json"⟩, ⟨"p/a.yaml.v2", "d2.json"⟩]) = "" := by
  decide

/-! ### Amended text-level claims -/

/-- C1 (amended): for every spec list and change mapping, each spec whose
source matches a renamed change with a non-empty new path yields a
`Retargeted` decision whose source equals the new path and whose destination
equals the original spec's destination unchanged; and — provided the paths
are clean (non-empty, free of whitespace and of `$`) and no acted-on source
path is a prefix of another entry's old or new source (`benign`) — the
retargeted entry appears among the survivors and
the patched output of the canonically rendered config re-parses to exactly
the surviving specs, so the output's `source:` value for that entry is the
new path and its `destination:` value is unchanged.  (Without `benign` the
claim is false: see the counterexample, where another entry's deletion
anchor is a prefix of the new path and devours the retargeted entry.) -/
theorem claim_C1_rename_retargets (specs : List Spec) (changes : List (String × Change))
    (s : Spec) (old new : String)
    (hs : s ∈ specs)
    (hl : lookupChange changes s.source = some (.R old new))
    (hne : ¬ new = "")
    (hb : benign specs changes) :
    decideSpec changes s = .retargeted ⟨new, s.destination⟩ ∧
    Spec.mk new s.destination ∈ survivingSpecs specs changes ∧
    parseFormattedBlock
        (replaceSpecsInYaml (updateSpecsToMap specs changes).1
          (formatOpenAPIBlock specs)) =
      some (survivingSpecs specs changes) := by
  have hd : decideSpec changes s = .retargeted ⟨new, s.destination⟩ := by
    unfold decideSpec
    rw [hl]
    show (if new = "" then Decision.dropped
        else Decision.retargeted { source := new, destination := s.destination }) =
      Decision.retargeted { source := new, destination := s.destination }
    rw [if_neg hne]
  exact ⟨hd,
    mem_surviving_of_final specs changes s hs _ (finalSpec_retargeted changes s _ hd),
    patched_parse specs changes hb⟩

theorem claim_C1_witness :
    lookupChange [("a/x.yaml", Change.R "a/x.yaml" "a/x2.yaml")] "a/x.yaml" =
      some (.R "a/x.yaml" "a/x2.yaml") ∧
    (decideSpec [("a/x.yaml", Change.R "a/x.yaml" "a/x2.yaml")]
        ⟨"a/x.yaml", "out/x.json"⟩ = .retargeted ⟨"a/x2.yaml", "out/x.json"⟩ ∧
     Spec.mk "a/x2.yaml" "out/x.json" ∈
       survivingSpecs [⟨"a/x.yaml", "out/x.json"⟩, ⟨"b/y.yaml", "out/y.json"⟩]
         [("a/x.yaml", Change.R "a/x.yaml" "a/x2.yaml")] ∧
     parseFormattedBlock
         (replaceSpecsInYaml
           (updateSpecsToMap [⟨"a/x.yaml", "out/x.json"⟩, ⟨"b/y.yaml", "out/y.json"⟩]
             [("a/x.yaml", Change.R "a/x.yaml" "a/x2.yaml")]).1
           (formatOpenAPIBlock
             [⟨"a/x.yaml", "out/x.json"⟩, ⟨"b/y.yaml", "out/y.json"⟩])) =
       some (survivingSpecs [⟨"a/x.yaml", "out/x.json"⟩, ⟨"b/y.yaml", "out/y.json"⟩]
         [("a/x.yaml", Change.R "a/x.yaml" "a/x2.yaml")])) :=
  ⟨by decide,
   claim_C1_rename_retargets
     [⟨"a/x.yaml", "out/x.json"⟩, ⟨"b/y.yaml", "out/y.json"⟩]
     [("a/x.yaml", Change.R "a/x.yaml" "a/x2.yaml")]
     ⟨"a/x.yaml", "out/x.json"⟩ "a/x.yaml" "a/x2.yaml"
     (by decide) (by decide) (by decide)
     (by
       refine ⟨by decide, ?_, by decide, by decide⟩
       intro t ht ns h
       fin_cases ht
       · have h2 : Decision.retargeted (⟨"a/x2.yaml", "out/x.json"⟩ : Spec) =
             .retargeted ns := h
         cases h2
         decide
       · have h2 : Decision.unchanged = .retargeted ns := h
         cases h2)⟩

/-- C2 (amended): for every spec list and change mapping, each spec whose
source matches a deleted change receives the `Dropped` decision; and under
`benign` (clean — non-empty, whitespace-free, `$`-free — paths, the dropped
entry's destination free of `-`, no
acted-on source a prefix of another entry's old or new source) no surviving
entry carries the dropped source, the patched output of the canonically
rendered config contains no `- source: <path>` occurrence for the dropped
path, and the output re-parses to exactly the surviving specs — the entry is
gone from both the text and its re-parse.  (Without the hyphen-free proviso
the claim is false: the deletion pattern's lazy tail stops at a `-` inside
the destination and leaves a residue, see the counterexample.) -/
theorem claim_C2_delete_removes_entry (specs : List Spec)
    (changes : List (String × Change)) (s : Spec) (p : String)
    (hs : s ∈ specs)
    (hl : lookupChange changes s.source = some (.D p))
    (hb : benign specs changes) :
    decideSpec changes s = .dropped ∧
    (∀ e ∈ survivingSpecs specs changes, ¬ e.source = s.source) ∧
    containsSeg ("- source: ".data ++ s.source.data)
      (replaceSpecsInYaml (updateSpecsToMap specs changes).1
        (formatOpenAPIBlock specs)).data = false ∧
    parseFormattedBlock
        (replaceSpecsInYaml (updateSpecsToMap specs changes).1
          (formatOpenAPIBlock specs)) =
      some (survivingSpecs specs changes) := by
  have hd : decideSpec changes s = .dropped := by
    unfold decideSpec
    rw [hl]
  obtain ⟨W, hW, heq⟩ := replaceSpecsInYaml_canonical specs changes hb
  have hWws : ∀ c ∈ W, isWs c = true := by
    rcases hW with rfl | rfl
    · intro c hc
      exact absurd hc (List.not_mem_nil c)
    · intro c hc
      rw [List.mem_singleton.mp hc]
      decide
  have hscl : cleanStr s.source = true := (hb.1 s hs).1
  have hsurv := surviving_clean specs changes hb
  have hnopre := surviving_no_prefix_of_dropped specs changes hb s hs hd
  refine ⟨hd, fun e he => ne_of_not_prefix _ _ (hnopre e he), ?_,
    patched_parse specs changes hb⟩
  rw [heq]
  cases hcs : containsSeg ("- source: ".data ++ s.source.data)
      (W ++ blockChars (survivingSpecs specs changes)) with
  | false => rfl
  | true =>
    exfalso
    obtain ⟨u, hu, hup⟩ := containsSeg_to_suffix _ _ hcs
    obtain ⟨rest, hrest⟩ := List.isPrefixOf_iff_prefix.mp hup
    have hune : u ≠ [] := by
      rw [← hrest]
      simp
    have hpos : matchLabeledAt ("- source:".data) (escapeRegExpL s.source.data) u =
        some (10, 10 + s.source.data.length) := by
      rw [← hrest, List.append_assoc]
      exact matchSrc_at_srcpos s.source hscl rest
    have hnone : matchLabeledAt ("- source:".data) (escapeRegExpL s.source.data) u =
        none := by
      rcases suffix_split hu with h1 | ⟨V', hV', hV'ne, rfl⟩
      · exact blockSuffix_none s.source hscl (survivingSpecs specs changes)
          (fun e he => (hsurv e he).1) (fun e he => (hsurv e he).2) hnopre u hune h1
      · exfalso
        obtain ⟨v, V'', rfl⟩ := List.exists_cons_of_ne_nil hV'ne
        have hv : isWs v = true := hWws v (hV'.sublist.subset (List.mem_cons_self _ _))
        have hpf : (("- source: ".data ++ s.source.data)).isPrefixOf
            ((v :: V'') ++ blockChars (survivingSpecs specs changes)) = false := by
          show (('-' :: (" source: ".data ++ s.source.data))).isPrefixOf
            (v :: (V'' ++ blockChars (survivingSpecs specs changes))) = false
          exact prefix_cons_false _ _ _ _ (ws_ne_of_not_ws hv (by decide))
        rw [hpf] at hup
        cases hup
    rw [hpos] at hnone
    cases hnone

theorem claim_C2_witness :
    lookupChange [("a/x.yaml", Change.D "a/x.yaml")] "a/x.yaml" =
      some (.D "a/x.yaml") ∧
    (decideSpec [("a/x.yaml", Change.D "a/x.yaml")] ⟨"a/x.yaml", "out/x.json"⟩ =
        .dropped ∧
     (∀ e ∈ survivingSpecs [⟨"a/x.yaml", "out/x.json"⟩, ⟨"b/y.yaml", "out/y.json"⟩]
         [("a/x.yaml", Change.D "a/x.yaml")],
       ¬ e.source = (⟨"a/x.yaml", "out/x.json"⟩ : Spec).source) ∧
     containsSeg ("- source: ".data ++ (⟨"a/x.yaml", "out/x.json"⟩ : Spec).source.data)
       (replaceSpecsInYaml
         (updateSpecsToMap [⟨"a/x.yaml", "out/x.json"⟩, ⟨"b/y.yaml", "out/y.json"⟩]
           [("a/x.yaml", Change.D "a/x.yaml")]).1
         (formatOpenAPIBlock
           [⟨"a/x.yaml", "out/x.json"⟩, ⟨"b/y.yaml", "out/y.json"⟩])).data = false ∧
     parseFormattedBlock
         (replaceSpecsInYaml
           (updateSpecsToMap [⟨"a/x.yaml", "out/x.json"⟩, ⟨"b/y.yaml", "out/y.json"⟩]
             [("a/x.yaml", Change.D "a/x.yaml")]).1
           (formatOpenAPIBlock
             [⟨"a/x.yaml", "out/x.json"⟩, ⟨"b/y.yaml", "out/y.json"⟩])) =
       some (survivingSpecs [⟨"a/x.yaml", "out/x.json"⟩, ⟨"b/y.yaml", "out/y.json"⟩]
         [("a/x.yaml", Change.D "a/x.yaml")])) :=
  ⟨by decide,
   claim_C2_delete_removes_entry
     [⟨"a/x.yaml", "out/x.json"⟩, ⟨"b/y.yaml", "out/y.json"⟩]
     [("a/x.yaml", Change.D "a/x.yaml")]
     ⟨"a/x.yaml", "out/x.json"⟩ "a/x.yaml"
     (by decide) (by decide)
     (by
       refine ⟨by decide, ?_, by decide, by decide⟩
       intro t ht ns h
       fin_cases ht
       · have h2 : Decision.dropped = .retargeted ns := h
         cases h2
       · have h2 : Decision.unchanged = .retargeted ns := h
         cases h2)⟩

/-- C3 (amended): for every spec list and change mapping, each spec whose
source has no entry in the change mapping receives the `Unchanged` decision;
and under `benign` (clean paths and, in particular, no acted-on source a
prefix of this entry's source) the untouched spec survives, its full rendered entry text still
occurs verbatim in the patched output of the canonically rendered config, and
the output re-parses to the surviving specs including it.  (Without the
prefix proviso the claim is false: a rename whose anchor is a prefix of the
unchanged entry's source rewrites that entry's bytes, see the
counterexample.) -/
theorem claim_C3_unchanged_untouched (specs : List Spec)
    (changes : List (String × Change)) (s : Spec)
    (hs : s ∈ specs)
    (hl : lookupChange changes s.source = none)
    (hb : benign specs changes) :
    decideSpec changes s = .unchanged ∧
    s ∈ survivingSpecs specs changes ∧
    containsSeg (specEntryChars s)
      (replaceSpecsInYaml (updateSpecsToMap specs changes).1
        (formatOpenAPIBlock specs)).data = true ∧
    parseFormattedBlock
        (replaceSpecsInYaml (updateSpecsToMap specs changes).1
          (formatOpenAPIBlock specs)) =
      some (survivingSpecs specs changes) := by
  have hd : decideSpec changes s = .unchanged := by
    unfold decideSpec
    rw [hl]
  have hmem := mem_surviving_of_final specs changes s hs s (finalSpec_unchanged changes s hd)
  refine ⟨hd, hmem, ?_, patched_parse specs changes hb⟩
  obtain ⟨W, hW, heq⟩ := replaceSpecsInYaml_canonical specs changes hb
  rw [heq]
  exact containsSeg_append_left _ _ _ (containsSeg_entry_of_mem s _ hmem)

theorem claim_C3_witness :
    lookupChange [("a/x.yaml", Change.D "a/x.yaml")] "b/y.yaml" = none ∧
    (decideSpec [("a/x.yaml", Change.D "a/x.yaml")] ⟨"b/y.yaml", "out/y.json"⟩ =
        .unchanged ∧
     Spec.mk "b/y.yaml" "out/y.json" ∈
       survivingSpecs [⟨"a/x.yaml", "out/x.json"⟩, ⟨"b/y.yaml", "out/y.json"⟩]
         [("a/x.yaml", Change.D "a/x.yaml")] ∧
     containsSeg (specEntryChars ⟨"b/y.yaml", "out/y.json"⟩)
       (replaceSpecsInYaml
         (updateSpecsToMap [⟨"a/x.yaml", "out/x.json"⟩, ⟨"b/y.yaml", "out/y.json"⟩]
           [("a/x.yaml", Change.D "a/x.yaml")]).1
         (formatOpenAPIBlock
           [⟨"a/x.yaml", "out/x.json"⟩, ⟨"b/y.yaml", "out/y.json"⟩])).data = true ∧
     parseFormattedBlock
         (replaceSpecsInYaml
           (updateSpecsToMap [⟨"a/x.yaml", "out/x.json"⟩, ⟨"b/y.yaml", "out/y.json"⟩]
             [("a/x.yaml", Change.D "a/x.yaml")]).1
           (formatOpenAPIBlock
             [⟨"a/x.yaml", "out/x.json"⟩, ⟨"b/y.yaml", "out/y.json"⟩])) =
       some (survivingSpecs [⟨"a/x.yaml", "out/x.json"⟩, ⟨"b/y.yaml", "out/y.json"⟩]
         [("a/x.yaml", Change.D "a/x.yaml")])) :=
  ⟨by decide,
   claim_C3_unchanged_untouched
     [⟨"a/x.yaml", "out/x.json"⟩, ⟨"b/y.yaml", "out/y.json"⟩]
     [("a/x.yaml", Change.D "a/x.yaml")]
     ⟨"b/y.yaml", "out/y.json"⟩
     (by decide) (by decide)
     (by
       refine ⟨by decide, ?_, by decide, by decide⟩
       intro t ht ns h
       fin_cases ht
       · have h2 : Decision.dropped = .retargeted ns := h
         cases h2
       · have h2 : Decision.unchanged = .retargeted ns := h
         cases h2)⟩

/-- C8 (amended): for every spec list and change mapping, the reconciler
produces exactly one decision per input spec in input order (the first
components of its result are the input specs); and under `benign` the
patched output of the canonically rendered config is, up to one leading
newline, the canonical rendering of `specs.filterMap (finalSpec changes)` —
the survivors in input order — so the survivors' relative order in the
output text equals their relative order in the input.  (Without `benign` the
text-level half is false: a deletion anchor that is a prefix of a survivor's
source wipes the survivor from the text, see the counterexample.) -/
theorem claim_C8_order_preserved (specs : List Spec) (changes : List (String × Change))
    (hb : benign specs changes) :
    (updateSpecsToMap specs changes).1.map Prod.fst = specs ∧
    survivingSpecs specs changes = specs.filterMap (finalSpec changes) ∧
    ∃ W, (W = [] ∨ W = ['\n']) ∧
      (replaceSpecsInYaml (updateSpecsToMap specs changes).1
        (formatOpenAPIBlock specs)).data =
      W ++ blockChars (specs.filterMap (finalSpec changes)) := by
  refine ⟨?_, survivingSpecs_eq specs changes, ?_⟩
  · rw [updateSpecsToMap_fst, List.map_map]
    simp [Function.comp_def]
  · obtain ⟨W, hW, heq⟩ := replaceSpecsInYaml_canonical specs changes hb
    rw [survivingSpecs_eq] at heq
    exact ⟨W, hW, heq⟩

theorem claim_C8_witness :
    (updateSpecsToMap [⟨"a/x.yaml", "out/x.json"⟩, ⟨"b/y.yaml", "out/y.json"⟩]
        [("a/x.yaml", Change.D "a/x.yaml")]).1.map Prod.fst =
      [⟨"a/x.yaml", "out/x.json"⟩, ⟨"b/y.yaml", "out/y.json"⟩] ∧
    survivingSpecs [⟨"a/x.yaml", "out/x.json"⟩, ⟨"b/y.yaml", "out/y.json"⟩]
        [("a/x.yaml", Change.D "a/x.yaml")] =
      List.filterMap (finalSpec [("a/x.yaml", Change.D "a/x.yaml")])
        [⟨"a/x.yaml", "out/x.json"⟩, ⟨"b/y.yaml", "out/y.json"⟩] ∧
    ∃ W, (W = [] ∨ W = ['\n']) ∧
      (replaceSpecsInYaml
        (updateSpecsToMap [⟨"a/x.yaml", "out/x.json"⟩, ⟨"b/y.yaml", "out/y.json"⟩]
          [("a/x.yaml", Change.D "a/x.yaml")]).1
        (formatOpenAPIBlock
          [⟨"a/x.yaml", "out/x.json"⟩, ⟨"b/y.yaml", "out/y.json"⟩])).data =
      W ++ blockChars (List.filterMap (finalSpec [("a/x.yaml", Change.D "a/x.yaml")])
        [⟨"a/x.yaml", "out/x.json"⟩, ⟨"b/y.yaml", "out/y.json"⟩]) :=
  claim_C8_order_preserved
    [⟨"a/x.yaml", "out/x.json"⟩, ⟨"b/y.yaml", "out/y.json"⟩]
    [("a/x.yaml", Change.D "a/x.yaml")]
    (by
      refine ⟨by decide, ?_, by decide, by decide⟩
      intro t ht ns h
      fin_cases ht
      · have h2 : Decision.dropped = .retargeted ns := h
        cases h2
      · have h2 : Decision.unchanged = .retargeted ns := h
        cases h2)

end UpdateConfig
